import Mathlib

/-!
Verification of the primesieve C API surface (primesieve-c.h) and the
low-level sieve helpers in src/soe/defs.h, against the natural-language
specification of the library.

The repository sources contain the public C API header (declarations and
documented contracts) and defs.h (the GENERATE_PRIMES macro, tuning
constants, and the BIT0..BIT7 unset masks).  The counting / nth-prime /
parallel operations themselves are not part of the sources, so they are
modelled from the specification; each such definition carries a
`Modelled from the spec:` doc comment.  Definitions taken from defs.h
follow that file directly.

Large prime-counting values are certified in-kernel by a verified
bit-mask sieve (multiples encoded as geometric series over powers of
two) combined with a verified SWAR population count.
-/

set_option exponentiation.threshold 8000000000000
set_option maxRecDepth 20000
set_option maxHeartbeats 1000000

/-! ## Constants from the sources -/

/-- From primesieve-c.h: `#define PRIMESIEVE_ERROR ((uint64_t)~((uint64_t)0))`,
i.e. `UINT64_MAX`; returned by count/nth operations on any error. -/
def PRIMESIEVE_ERROR : Nat := 2 ^ 64 - 1

/-- From primesieve-c.h: `max_stop()` returns `(2^64-1) - (2^32-1) * 10`,
the largest valid stop number for primesieve. -/
def max_stop : Nat := (2 ^ 64 - 1) - (2 ^ 32 - 1) * 10

/-- From primesieve-c.h: the precondition bound of `nth_prime` is
`start <= 2^64 - 2^32 * 10`. -/
def NTH_PRIME_START_LIMIT : Nat := 2 ^ 64 - 2 ^ 32 * 10

/-- From defs.h: `MIN_THREAD_INTERVAL = static_cast<int>(1E8)`. -/
def MIN_THREAD_INTERVAL : Nat := 100000000

/-- Modelled from the spec: `numbers_per_byte = 30` (the constant
NUMBERS_PER_BYTE used by GENERATE_PRIMES lives in a source file that is
not under src/). -/
def NUMBERS_PER_BYTE : Nat := 30

/-- From defs.h: `BIT0 = 0xfe`. -/
def BIT0 : Nat := 0xfe

/-- From defs.h: `BIT1 = 0xfd`. -/
def BIT1 : Nat := 0xfd

/-- From defs.h: `BIT2 = 0xfb`. -/
def BIT2 : Nat := 0xfb

/-- From defs.h: `BIT3 = 0xf7`. -/
def BIT3 : Nat := 0xf7

/-- From defs.h: `BIT4 = 0xef`. -/
def BIT4 : Nat := 0xef

/-- From defs.h: `BIT5 = 0xdf`. -/
def BIT5 : Nat := 0xdf

/-- From defs.h: `BIT6 = 0xbf`. -/
def BIT6 : Nat := 0xbf

/-- From defs.h: `BIT7 = 0x7f`. -/
def BIT7 : Nat := 0x7f

/-- The eight unset masks of defs.h as a function of the bit index. -/
def BIT : Nat → Nat
  | 0 => BIT0
  | 1 => BIT1
  | 2 => BIT2
  | 3 => BIT3
  | 4 => BIT4
  | 5 => BIT5
  | 6 => BIT6
  | _ => BIT7

/-! ## Primality by trial division (executable) -/

/-- Trial division by odd candidates `k, k+2, k+4, ...` with explicit fuel. -/
def isPrimeAux (n : Nat) : Nat → Nat → Bool
  | _, 0 => true
  | k, fuel+1 =>
    if n < k * k then true
    else if n % k == 0 then false
    else isPrimeAux n (k + 2) fuel

/-- Executable primality test by trial division. -/
def isPrime (n : Nat) : Bool :=
  if n < 2 then false
  else if n % 2 == 0 then n == 2
  else isPrimeAux n 3 n

/-! ## Counting a predicate over an interval (executable, balanced) -/

/-- Balanced (logarithmic-depth) count of `pred` over `[lo, lo+n)`;
the first argument is a depth bound with `n ≤ 2 ^ d`. -/
def countSatD (pred : Nat → Bool) : Nat → Nat → Nat → Nat
  | 0, _, _ => 0
  | d+1, lo, n =>
    if n == 0 then 0
    else if n == 1 then (bif pred lo then 1 else 0)
    else countSatD pred d lo (n / 2) + countSatD pred d (lo + n / 2) (n - n / 2)

/-- Number of `k ∈ [lo, lo+n)` with `pred k = true`. -/
def countSat (pred : Nat → Bool) (lo n : Nat) : Nat :=
  countSatD pred n lo n

/-! ## The public counting operations, modelled from the spec -/

/-- Modelled from the spec: `count_primes(start, stop)` counts the primes
in `[start, stop]`; `stop > max_stop()` is an InvalidRange failure and
returns the sentinel `PRIMESIEVE_ERROR` (the sieve implementation is not
under src/, only its declaration and documented contract). -/
def count_primes (start stop : Nat) : Nat :=
  if max_stop < stop then PRIMESIEVE_ERROR
  else countSat isPrime start (stop + 1 - start)

/-- A twin pair with smallest member `p`: both `p` and `p+2` are prime. -/
def twinPred (p : Nat) : Bool := isPrime p && isPrime (p + 2)

/-- A prime triplet with smallest member `p`: per the spec,
`(p, p+2, p+6)` or `(p, p+4, p+6)`. -/
def tripletPred (p : Nat) : Bool :=
  isPrime p && isPrime (p + 6) && (isPrime (p + 2) || isPrime (p + 4))

/-- Modelled from the spec: `count_twins(start, stop)` counts the twin
pairs whose smallest member lies in `[start, stop]`; failure handling as
in `count_primes`. -/
def count_twins (start stop : Nat) : Nat :=
  if max_stop < stop then PRIMESIEVE_ERROR
  else countSat twinPred start (stop + 1 - start)

/-- Modelled from the spec: `count_triplets(start, stop)` counts the
prime triplets whose smallest member lies in `[start, stop]`. -/
def count_triplets (start stop : Nat) : Nat :=
  if max_stop < stop then PRIMESIEVE_ERROR
  else countSat tripletPred start (stop + 1 - start)

/-- Modelled from the spec: `print_primes(start, stop)` writes the primes
in `[start, stop]` to standard output, one per line; the output is
modelled as the list of printed numbers. -/
def print_primes (start stop : Nat) : List Nat :=
  if max_stop < stop then []
  else ((List.range (stop + 1 - start)).map (start + ·)).filter isPrime

/-! ## The parallel dispatcher, modelled from the spec -/

/-- Modelled from the spec (§4.10): number of worker threads used for an
interval: `min(threads, ceil(interval / MIN_THREAD_INTERVAL), cores)`,
where `threads = 0` means all cores; at least one thread. -/
def numThreads (threads cores interval : Nat) : Nat :=
  max 1 (min (min (if threads == 0 then cores else threads)
    ((interval + MIN_THREAD_INTERVAL - 1) / MIN_THREAD_INTERVAL)) cores)

/-- Sum of the per-chunk counts: `r` chunks starting at `b`, each of
`csize` numbers, the last chunk extending to `stopP - 1`. -/
def sumChunks (pred : Nat → Bool) (csize stopP : Nat) : Nat → Nat → Nat
  | _, 0 => 0
  | b, 1 => countSat pred b (stopP - b)
  | b, r+2 => countSat pred b csize + sumChunks pred csize stopP (b + csize) (r + 1)

/-- Modelled from the spec (§4.10): the parallel dispatcher splits
`[start, stop]` into per-thread chunks aligned to multiples of 30 (the
remainder going to the last thread), runs the serial counter on each
chunk, and sums the results; intervals shorter than
`MIN_THREAD_INTERVAL` are processed serially.  The machine's core count
is environmental and is passed explicitly. -/
def parallelDispatchCount (pred : Nat → Bool) (start stop threads cores : Nat) : Nat :=
  if max_stop < stop then PRIMESIEVE_ERROR
  else
    let interval := stop + 1 - start
    if interval < MIN_THREAD_INTERVAL then countSat pred start interval
    else
      let n := numThreads threads cores interval
      let csize := interval / n / 30 * 30
      sumChunks pred csize (stop + 1) start n

/-- Modelled from the spec: `parallel_count_primes(start, stop, threads)`
(the core count, environmental in the C API, is an explicit argument). -/
def parallel_count_primes (start stop threads cores : Nat) : Nat :=
  parallelDispatchCount isPrime start stop threads cores

/-- Modelled from the spec: `parallel_count_twins(start, stop, threads)`. -/
def parallel_count_twins (start stop threads cores : Nat) : Nat :=
  parallelDispatchCount twinPred start stop threads cores

/-! ## nth_prime, modelled from the spec -/

/-- Linear scan for the first prime at or above `c`, with fuel. -/
def findPrimeFrom : Nat → Nat → Nat
  | c, 0 => c
  | c, fuel+1 => if isPrime c then c else findPrimeFrom (c + 1) fuel

/-- The least prime strictly greater than `m` (the fuel `m + 2` is
sufficient by Bertrand's postulate). -/
def nextPrime (m : Nat) : Nat := findPrimeFrom (m + 1) (m + 2)

/-- Iterated `nextPrime`. -/
def nthPrimeAux : Nat → Nat → Nat
  | s, 0 => s
  | s, k+1 => nthPrimeAux (nextPrime s) k

/-- Modelled from the spec: `nth_prime(n, start)` returns the n-th prime
greater than `start`; `n = 0` is treated as invalid and violating the
header precondition `start <= 2^64 - 2^32*10` is a failure, both
returning the sentinel. -/
def nth_prime (n start : Nat) : Nat :=
  if n == 0 then PRIMESIEVE_ERROR
  else if NTH_PRIME_START_LIMIT < start then PRIMESIEVE_ERROR
  else nthPrimeAux start n

/-! ## GENERATE_PRIMES from defs.h -/

/-- Modelled from the spec: the base table
`bit_values[0..7] = {7, 11, 13, 17, 19, 23, 29, 31}` (the `bitValues_`
array lives in PrimeNumberFinder.cpp / PrimeNumberGenerator.cpp, not
under src/). -/
def bitValues8 : List Nat := [7, 11, 13, 17, 19, 23, 29, 31]

/-- Modelled from the spec: the 32-entry `bitValues_` table used by the
word loop of GENERATE_PRIMES: entry `j` is
`30 * (j / 8) + bit_values[j % 8]`. -/
def bitValues32 (j : Nat) : Nat := 30 * (j / 8) + bitValues8.getD (j % 8) 0

/-- bitScanForward: index of the lowest set bit (with fuel; the C code
only calls it on nonzero words). -/
def bsfAux : Nat → Nat → Nat
  | _, 0 => 0
  | w, fuel+1 => if w % 2 == 1 then 0 else 1 + bsfAux (w / 2) fuel

/-- Index of the lowest set bit of `w` (for `w ≠ 0`). -/
def bsf (w : Nat) : Nat := bsfAux w w

/-- From defs.h, GENERATE_PRIMES inner loop: while `word != 0`, emit
`lowerBound + bitValues_[bitScanForward(word)]` and clear the lowest set
bit with `word &= word - 1`.  The fuel argument strictly exceeds the
number of iterations whenever it is at least `word`. -/
def scanWord (lowerBound : Nat) : Nat → Nat → List Nat
  | _, 0 => []
  | w, fuel+1 =>
    if w == 0 then []
    else (lowerBound + bitValues32 (bsf w)) :: scanWord lowerBound (w &&& (w - 1)) fuel

/-- The 32-bit little-endian word formed from four consecutive sieve
bytes, as read by `reinterpret_cast<const uint32_t*>(sieve)[i]`. -/
def word32 (b0 b1 b2 b3 : Nat) : Nat := b0 + 256 * b1 + 65536 * b2 + 16777216 * b3

/-- From defs.h, GENERATE_PRIMES: the word loop processes the sieve four
bytes at a time advancing `lowerBound` by `NUMBERS_PER_BYTE * 4`; the
remaining bytes are processed by the byte loop advancing `lowerBound` by
`NUMBERS_PER_BYTE`.  Returns the list of emitted primes together with
the final value of `lowerBound`. -/
def generatePrimes (lowerBound : Nat) : List Nat → List Nat × Nat
  | b0 :: b1 :: b2 :: b3 :: rest =>
    let w := word32 b0 b1 b2 b3
    let out := generatePrimes (lowerBound + NUMBERS_PER_BYTE * 4) rest
    (scanWord lowerBound w w ++ out.1, out.2)
  | b :: rest =>
    let out := generatePrimes (lowerBound + NUMBERS_PER_BYTE) rest
    (scanWord lowerBound b b ++ out.1, out.2)
  | [] => ([], lowerBound)

/-- Reference semantics of one sieve byte: for each set bit `j` of `b`
(in increasing order of `j`), the number `lowerBound + bit_values[j]`. -/
def naiveByte (lowerBound b : Nat) : List Nat :=
  (List.range 8).filterMap fun j =>
    if b.testBit j then some (lowerBound + bitValues8.getD j 0) else none

/-- Reference semantics of GENERATE_PRIMES: a per-bit scan of the sieve
bytes in order, 30 numbers per byte. -/
def naiveGen (lowerBound : Nat) : List Nat → List Nat
  | [] => []
  | b :: rest => naiveByte lowerBound b ++ naiveGen (lowerBound + 30) rest

/-! ## Verified fast prime counting: bit-mask sieve and SWAR popcount -/

/-- Specification population count: number of set bits. -/
def popc : Nat → Nat
  | 0 => 0
  | n+1 => (n + 1) % 2 + popc ((n + 1) / 2)
decreasing_by exact Nat.div_lt_self (Nat.succ_pos n) Nat.one_lt_two

/-- The geometric series `∑_{j < m} 2 ^ (W * j)`, computed by one exact
division. -/
def repMask (W m : Nat) : Nat := (2 ^ (W * m) - 1) / (2 ^ W - 1)

/-- Bit mask of the multiples of `p` that lie in `[A, B)` and are at
least `p * p`, relative to base `A`: bit `x - A` is set for every such
multiple `x`. -/
def pMask (p A B : Nat) : Nat :=
  let m0 := max (p * p) (p * ((A + p - 1) / p))
  if m0 < B then repMask p ((B - 1 - m0) / p + 1) <<< (m0 - A) else 0

/-- One SWAR halving round: fields of width `2 * w` each receive the sum
of their two width-`w` halves; `m` is the number of fields. -/
def swarRound (w m X : Nat) : Nat :=
  let M := (2 ^ w - 1) * repMask (2 * w) m
  (X &&& M) + ((X >>> w) &&& M)

/-- Population count of `X < 2 ^ (32 * m)` by five SWAR rounds followed
by a digit sum modulo `2 ^ 32 - 1`. -/
def popc32 (m X : Nat) : Nat :=
  swarRound 16 m (swarRound 8 (2 * m) (swarRound 4 (4 * m)
    (swarRound 2 (8 * m) (swarRound 1 (16 * m) X)))) % (2 ^ 32 - 1)

/-- The number whose width-`w` field `i` holds the `i`-th list entry
(entries are expected below `2 ^ w`). -/
def ofF (w : Nat) : List Nat → Nat
  | [] => 0
  | a :: L => a + 2 ^ w * ofF w L

/-- Pair adjacent width-`w` fields into width-`2 * w` fields. -/
def pairup (w : Nat) : List Nat → List Nat
  | [] => []
  | [a] => [a]
  | a :: b :: t => (a + 2 ^ w * b) :: pairup w t

/-- Sums of adjacent pairs of a list. -/
def pairSum : List Nat → List Nat
  | [] => []
  | [a] => [a]
  | a :: b :: t => (a + b) :: pairSum t

/-- The low `f` bits of a number, least significant first. -/
def bitsF : Nat → Nat → List Nat
  | 0, _ => []
  | f+1, n => (n % 2) :: bitsF f (n / 2)

/-- OR of the multiple masks of all primes of a list. -/
def listOrP (A B : Nat) (l : List Nat) : Nat :=
  l.foldr (fun q acc => pMask q A B ||| acc) 0

/-- Balanced (logarithmic-depth) computation of `listOrP` with depth
fuel `d`; falls back to the linear fold when the fuel runs out. -/
def orList (A B : Nat) : Nat → List Nat → Nat
  | 0, l => listOrP A B l
  | d+1, l =>
    if l.length ≤ 1 then listOrP A B l
    else orList A B d (l.take (l.length / 2)) ||| orList A B d (l.drop (l.length / 2))

/-- Composite mask of the interval `[A, B)` for a list `l` of odd sieving
primes: bit `j` is set exactly when `A + j` is composite (for `2 ≤ A`,
`l` holding every odd prime `q` with `q * q < B`). -/
def segMaskL (A B : Nat) (l : List Nat) : Nat := pMask 2 A B ||| orList A B 16 l

/-- Number of primes in `[A, B)` (for `2 ≤ A ≤ B`), computed from the
composite mask by SWAR popcount. -/
def segCountL (A B : Nat) (l : List Nat) : Nat :=
  (B - A) - popc32 ((B - A) / 32 + 1) (segMaskL A B l)

/-- The odd primes up to `3935` (all odd primes `q` with
`q * q < 15485864`), certified against `isPrime` below. -/
def primesSmall2 : List Nat := [3, 5, 7, 11, 13, 17, 19, 23, 29, 31, 37, 41, 43, 47, 53, 59, 61, 67, 71, 73, 79, 83, 89, 97, 101, 103, 107, 109, 113, 127, 131, 137, 139, 149, 151, 157, 163, 167, 173, 179, 181, 191, 193, 197, 199, 211, 223, 227, 229, 233, 239, 241, 251, 257, 263, 269, 271, 277, 281, 283, 293, 307, 311, 313, 317, 331, 337, 347, 349, 353, 359, 367, 373, 379, 383, 389, 397, 401, 409, 419, 421, 431, 433, 439, 443, 449, 457, 461, 463, 467, 479, 487, 491, 499, 503, 509, 521, 523, 541, 547, 557, 563, 569, 571, 577, 587, 593, 599, 601, 607, 613, 617, 619, 631, 641, 643, 647, 653, 659, 661, 673, 677, 683, 691, 701, 709, 719, 727, 733, 739, 743, 751, 757, 761, 769, 773, 787, 797, 809, 811, 821, 823, 827, 829, 839, 853, 857, 859, 863, 877, 881, 883, 887, 907, 911, 919, 929, 937, 941, 947, 953, 967, 971, 977, 983, 991, 997, 1009, 1013, 1019, 1021, 1031, 1033, 1039, 1049, 1051, 1061, 1063, 1069, 1087, 1091, 1093, 1097, 1103, 1109, 1117, 1123, 1129, 1151, 1153, 1163, 1171, 1181, 1187, 1193, 1201, 1213, 1217, 1223, 1229, 1231, 1237, 1249, 1259, 1277, 1279, 1283, 1289, 1291, 1297, 1301, 1303, 1307, 1319, 1321, 1327, 1361, 1367, 1373, 1381, 1399, 1409, 1423, 1427, 1429, 1433, 1439, 1447, 1451, 1453, 1459, 1471, 1481, 1483, 1487, 1489, 1493, 1499, 1511, 1523, 1531, 1543, 1549, 1553, 1559, 1567, 1571, 1579, 1583, 1597, 1601, 1607, 1609, 1613, 1619, 1621, 1627, 1637, 1657, 1663, 1667, 1669, 1693, 1697, 1699, 1709, 1721, 1723, 1733, 1741, 1747, 1753, 1759, 1777, 1783, 1787, 1789, 1801, 1811, 1823, 1831, 1847, 1861, 1867, 1871, 1873, 1877, 1879, 1889, 1901, 1907, 1913, 1931, 1933, 1949, 1951, 1973, 1979, 1987, 1993, 1997, 1999, 2003, 2011, 2017, 2027, 2029, 2039, 2053, 2063, 2069, 2081, 2083, 2087, 2089, 2099, 2111, 2113, 2129, 2131, 2137, 2141, 2143, 2153, 2161, 2179, 2203, 2207, 2213, 2221, 2237, 2239, 2243, 2251, 2267, 2269, 2273, 2281, 2287, 2293, 2297, 2309, 2311, 2333, 2339, 2341, 2347, 2351, 2357, 2371, 2377, 2381, 2383, 2389, 2393, 2399, 2411, 2417, 2423, 2437, 2441, 2447, 2459, 2467, 2473, 2477, 2503, 2521, 2531, 2539, 2543, 2549, 2551, 2557, 2579, 2591, 2593, 2609, 2617, 2621, 2633, 2647, 2657, 2659, 2663, 2671, 2677, 2683, 2687, 2689, 2693, 2699, 2707, 2711, 2713, 2719, 2729, 2731, 2741, 2749, 2753, 2767, 2777, 2789, 2791, 2797, 2801, 2803, 2819, 2833, 2837, 2843, 2851, 2857, 2861, 2879, 2887, 2897, 2903, 2909, 2917, 2927, 2939, 2953, 2957, 2963, 2969, 2971, 2999, 3001, 3011, 3019, 3023, 3037, 3041, 3049, 3061, 3067, 3079, 3083, 3089, 3109, 3119, 3121, 3137, 3163, 3167, 3169, 3181, 3187, 3191, 3203, 3209, 3217, 3221, 3229, 3251, 3253, 3257, 3259, 3271, 3299, 3301, 3307, 3313, 3319, 3323, 3329, 3331, 3343, 3347, 3359, 3361, 3371, 3373, 3389, 3391, 3407, 3413, 3433, 3449, 3457, 3461, 3463, 3467, 3469, 3491, 3499, 3511, 3517, 3527, 3529, 3533, 3539, 3541, 3547, 3557, 3559, 3571, 3581, 3583, 3593, 3607, 3613, 3617, 3623, 3631, 3637, 3643, 3659, 3671, 3673, 3677, 3691, 3697, 3701, 3709, 3719, 3727, 3733, 3739, 3761, 3767, 3769, 3779, 3793, 3797, 3803, 3821, 3823, 3833, 3847, 3851, 3853, 3863, 3877, 3881, 3889, 3907, 3911, 3917, 3919, 3923, 3929, 3931]

/-! ## Correctness of the trial-division primality test -/

theorem dvd_le_half {m n : Nat} (hm1 : 1 < m) (hmn : m < n) (hdvd : m ∣ n) :
    m ≤ n / 2 := by
  obtain ⟨t, ht⟩ := hdvd
  have ht2 : 2 ≤ t := by
    rcases Nat.lt_or_ge t 2 with h | h
    · interval_cases t <;> omega
    · exact h
  have : m * 2 ≤ m * t := Nat.mul_le_mul_left m ht2
  omega

theorem isPrimeAux_eq : ∀ fuel k n, 2 < n → n % 2 = 1 → 3 ≤ k → k % 2 = 1 →
    (∀ d, 1 < d → d < k → ¬ d ∣ n) → n ≤ k + 2 * fuel →
    (isPrimeAux n k fuel = true ↔ Nat.Prime n) := by
  intro fuel
  induction fuel with
  | zero =>
    intro k n hn hodd hk3 hkodd hbelow hfuel
    simp only [isPrimeAux, true_iff]
    rw [Nat.prime_def_lt]
    refine ⟨by omega, fun m hmn hdvd => ?_⟩
    by_contra hm1
    have h1m : 1 < m := by
      rcases Nat.eq_zero_or_pos m with h | h
      · subst h; simp at hdvd; omega
      · omega
    have := dvd_le_half h1m hmn hdvd
    exact hbelow m h1m (by omega) hdvd
  | succ fuel ih =>
    intro k n hn hodd hk3 hkodd hbelow hfuel
    show (if n < k * k then true
      else if n % k == 0 then false
      else isPrimeAux n (k + 2) fuel) = true ↔ Nat.Prime n
    by_cases hlt : n < k * k
    · simp only [if_pos hlt, true_iff]
      by_contra hnp
      have hq : Nat.Prime (Nat.minFac n) := Nat.minFac_prime (by omega)
      have hqsq : Nat.minFac n ^ 2 ≤ n := Nat.minFac_sq_le_self (by omega) hnp
      have hqk : Nat.minFac n < k := by
        by_contra hge
        have h1 : k * k ≤ Nat.minFac n * Nat.minFac n :=
          Nat.mul_le_mul (by omega) (by omega)
        have h2 : Nat.minFac n ^ 2 = Nat.minFac n * Nat.minFac n := sq (Nat.minFac n)
        omega
      exact hbelow (Nat.minFac n) hq.one_lt hqk (Nat.minFac_dvd n)
    · simp only [if_neg hlt, beq_iff_eq]
      by_cases hdvd : n % k = 0
      · have hkdvd : k ∣ n := Nat.dvd_of_mod_eq_zero hdvd
        simp only [if_pos hdvd, Bool.false_eq_true, false_iff]
        intro hp
        rcases hp.eq_one_or_self_of_dvd k hkdvd with h | h
        · omega
        · have hkk : k * k ≤ k * 1 := by omega
          have := Nat.le_of_mul_le_mul_left hkk (by omega : 0 < k)
          omega
      · simp only [if_neg hdvd]
        apply ih (k + 2) n hn hodd (by omega) (by omega)
        · intro d hd1 hdk2 hddvd
          rcases Nat.lt_or_ge d k with h | h
          · exact hbelow d hd1 h hddvd
          · have hdk : d = k ∨ d = k + 1 := by omega
            rcases hdk with h' | h'
            · subst h'
              exact hdvd (Nat.mod_eq_zero_of_dvd hddvd)
            · have h2d : (2 : Nat) ∣ d := by omega
              have : (2 : Nat) ∣ n := h2d.trans hddvd
              omega
        · omega

theorem isPrime_iff (n : Nat) : isPrime n = true ↔ Nat.Prime n := by
  unfold isPrime
  by_cases h2 : n < 2
  · simp only [if_pos h2, Bool.false_eq_true, false_iff]
    intro hp
    have := hp.two_le
    omega
  · simp only [if_neg h2]
    simp only [beq_iff_eq]
    by_cases heven : n % 2 = 0
    · have h2dvd : (2 : Nat) ∣ n := Nat.dvd_of_mod_eq_zero heven
      simp only [if_pos heven, beq_iff_eq]
      constructor
      · intro h
        subst h
        exact Nat.prime_two
      · intro hp
        rcases hp.eq_one_or_self_of_dvd 2 h2dvd with h | h
        · omega
        · omega
    · have hodd2 : n % 2 = 1 := by omega
      simp only [if_neg heven]
      apply isPrimeAux_eq n 3 n (by omega) hodd2 (by omega) (by omega)
      · intro d hd1 hd3 hdvd
        have hd : d = 2 := by omega
        subst hd
        have := Nat.mod_eq_zero_of_dvd hdvd
        omega
      · omega

/-! ## The balanced counter counts exactly -/

theorem countSatD_eq (pred : Nat → Bool) :
    ∀ d lo n, n ≤ 2 ^ d →
    countSatD pred (d + 1) lo n
      = ((Finset.Ico lo (lo + n)).filter (fun x => pred x = true)).card := by
  intro d
  induction d with
  | zero =>
    intro lo n hn
    interval_cases n
    · simp [countSatD]
    · show (bif pred lo then 1 else 0)
        = ((Finset.Ico lo (lo + 1)).filter (fun x => pred x = true)).card
      rw [Nat.Ico_succ_singleton, Finset.filter_singleton]
      cases hpl : pred lo <;> simp [hpl]
  | succ d ih =>
    intro lo n hn
    by_cases h0 : n = 0
    · subst h0
      simp [countSatD]
    · by_cases h1 : n = 1
      · subst h1
        show (bif pred lo then 1 else 0)
          = ((Finset.Ico lo (lo + 1)).filter (fun x => pred x = true)).card
        rw [Nat.Ico_succ_singleton, Finset.filter_singleton]
        cases hpl : pred lo <;> simp [hpl]
      · have h2p : 2 ^ (d + 1 + 1) = 2 * 2 ^ (d + 1) := by
          rw [Nat.pow_succ]
          omega
        show (if n == 0 then 0 else if n == 1 then (bif pred lo then 1 else 0)
            else countSatD pred (d + 1) lo (n / 2)
              + countSatD pred (d + 1) (lo + n / 2) (n - n / 2))
          = ((Finset.Ico lo (lo + n)).filter (fun x => pred x = true)).card
        simp only [beq_iff_eq]
        rw [if_neg h0, if_neg h1]
        rw [ih lo (n / 2) (by omega), ih (lo + n / 2) (n - n / 2) (by omega)]
        rw [show lo + n / 2 + (n - n / 2) = lo + n from by omega]
        rw [← Finset.card_union_of_disjoint
          (Finset.disjoint_filter_filter
            (Finset.Ico_disjoint_Ico_consecutive lo (lo + n / 2) (lo + n)))]
        rw [← Finset.filter_union]
        rw [Finset.Ico_union_Ico_eq_Ico (by omega) (by omega)]

theorem countSat_eq (pred : Nat → Bool) (lo n : Nat) :
    countSat pred lo n
      = ((Finset.Ico lo (lo + n)).filter (fun x => pred x = true)).card := by
  cases n with
  | zero => simp [countSat, countSatD]
  | succ m =>
    unfold countSat
    exact countSatD_eq pred m lo (m + 1) (Nat.lt_two_pow m)

theorem countSat_split (pred : Nat → Bool) (a m k : Nat) :
    countSat pred a (m + k) = countSat pred a m + countSat pred (a + m) k := by
  rw [countSat_eq, countSat_eq, countSat_eq]
  rw [show a + m + k = (a + m) + k from rfl]
  rw [← Finset.card_union_of_disjoint
    (Finset.disjoint_filter_filter
      (Finset.Ico_disjoint_Ico_consecutive a (a + m) (a + m + k)))]
  rw [← Finset.filter_union]
  rw [Finset.Ico_union_Ico_eq_Ico (by omega) (by omega)]
  rw [show a + m + k = a + (m + k) from by omega]

theorem countSat_le (pred : Nat → Bool) (lo n : Nat) : countSat pred lo n ≤ n := by
  rw [countSat_eq]
  calc ((Finset.Ico lo (lo + n)).filter (fun x => pred x = true)).card
      ≤ (Finset.Ico lo (lo + n)).card := Finset.card_filter_le _ _
    _ = n := by rw [Nat.card_Ico]; omega

theorem countSat_primes (lo n : Nat) :
    countSat isPrime lo n = ((Finset.Ico lo (lo + n)).filter Nat.Prime).card := by
  rw [countSat_eq]
  congr 1
  exact Finset.filter_congr fun x _ => isPrime_iff x

theorem count_primes_eq {start stop : Nat} (h : stop ≤ max_stop) :
    count_primes start stop = ((Finset.Icc start stop).filter Nat.Prime).card := by
  unfold count_primes
  rw [if_neg (by omega)]
  rw [countSat_primes]
  rcases le_or_lt start stop with hle | hlt
  · rw [show start + (stop + 1 - start) = stop + 1 from by omega]
    rw [Nat.Ico_succ_right]
  · rw [show stop + 1 - start = 0 from by omega]
    rw [Finset.Icc_eq_empty (by omega)]
    simp

/-! ## Generic form of the counting operations -/

theorem countOp_eq {pred : Nat → Bool} {P : Nat → Prop} [DecidablePred P]
    (hrel : ∀ x, pred x = true ↔ P x) {start stop : Nat} (h : stop ≤ max_stop) :
    (if max_stop < stop then PRIMESIEVE_ERROR
      else countSat pred start (stop + 1 - start))
      = ((Finset.Icc start stop).filter P).card := by
  rw [if_neg (by omega)]
  rw [countSat_eq]
  have hfilter : ((Finset.Ico start (start + (stop + 1 - start))).filter
      (fun x => pred x = true)).card
      = ((Finset.Ico start (start + (stop + 1 - start))).filter P).card := by
    congr 1
    exact Finset.filter_congr fun x _ => hrel x
  rw [hfilter]
  rcases le_or_lt start stop with hle | hlt
  · rw [show start + (stop + 1 - start) = stop + 1 from by omega]
    rw [Nat.Ico_succ_right]
  · rw [show stop + 1 - start = 0 from by omega]
    rw [Finset.Icc_eq_empty (by omega)]
    simp

/-! ## The parallel dispatcher equals the serial count -/

theorem sumChunks_eq (pred : Nat → Bool) :
    ∀ r b csize stopP, b + (r - 1) * csize ≤ stopP → 1 ≤ r →
    sumChunks pred csize stopP b r = countSat pred b (stopP - b) := by
  intro r
  induction r with
  | zero => omega
  | succ r ih =>
    intro b csize stopP hbound _
    cases r with
    | zero => rfl
    | succ r' =>
      show countSat pred b csize + sumChunks pred csize stopP (b + csize) (r' + 1)
        = countSat pred b (stopP - b)
      have hm : (r' + 1 + 1 - 1) * csize = r' * csize + csize := by
        rw [show r' + 1 + 1 - 1 = r' + 1 from rfl, Nat.succ_mul]
      rw [hm] at hbound
      rw [ih (b + csize) csize stopP (by
        rw [show r' + 1 - 1 = r' from rfl]
        omega) (by omega)]
      rw [← countSat_split]
      congr 1
      omega

theorem parallelDispatch_eq (pred : Nat → Bool) (start stop threads cores : Nat) :
    parallelDispatchCount pred start stop threads cores
      = (if max_stop < stop then PRIMESIEVE_ERROR
          else countSat pred start (stop + 1 - start)) := by
  unfold parallelDispatchCount
  by_cases herr : max_stop < stop
  · rw [if_pos herr, if_pos herr]
  · rw [if_neg herr, if_neg herr]
    by_cases hsmall : stop + 1 - start < MIN_THREAD_INTERVAL
    · rw [if_pos hsmall]
    · rw [if_neg hsmall]
      have hstart : start ≤ stop := by
        unfold MIN_THREAD_INTERVAL at hsmall
        omega
      have hn1 : 1 ≤ numThreads threads cores (stop + 1 - start) := le_max_left 1 _
      set n := numThreads threads cores (stop + 1 - start) with hn
      set interval := stop + 1 - start with hint
      set csize := interval / n / 30 * 30 with hcs
      have hchain : (n - 1) * csize ≤ interval := by
        calc (n - 1) * csize ≤ (n - 1) * (interval / n) :=
              Nat.mul_le_mul_left _ (Nat.div_mul_le_self (interval / n) 30)
          _ ≤ n * (interval / n) := Nat.mul_le_mul_right _ (by omega)
          _ = interval / n * n := Nat.mul_comm _ _
          _ ≤ interval := Nat.div_mul_le_self interval n
      rw [sumChunks_eq pred n start csize (stop + 1) (by omega) hn1]

/-! ## Claim C2 -/

/-- C2: for b ≤ max_stop, count_twins(a, b) equals the number of p in
[a, b] with p and p+2 both prime, and count_triplets counts exactly the
triplets whose smallest member lies in [a, b]. -/
theorem primesieve_C2_tuplet_definition (a b : Nat) (h : b ≤ max_stop) :
    count_twins a b
      = ((Finset.Icc a b).filter (fun p => Nat.Prime p ∧ Nat.Prime (p + 2))).card
    ∧ count_triplets a b
      = ((Finset.Icc a b).filter (fun p => Nat.Prime p ∧ Nat.Prime (p + 6)
          ∧ (Nat.Prime (p + 2) ∨ Nat.Prime (p + 4)))).card := by
  constructor
  · exact countOp_eq (fun x => by
      simp only [twinPred, Bool.and_eq_true, isPrime_iff]) h
  · exact countOp_eq (fun x => by
      simp only [tripletPred, Bool.and_eq_true, Bool.or_eq_true, isPrime_iff, and_assoc]) h

/-- Witness for C2 at a concrete input: the twins below 30 are
(3,5), (5,7), (11,13), (17,19), (29,31). -/
theorem primesieve_C2_witness :
    30 ≤ max_stop
    ∧ count_twins 0 30
        = ((Finset.Icc 0 30).filter (fun p => Nat.Prime p ∧ Nat.Prime (p + 2))).card :=
  ⟨by decide, (primesieve_C2_tuplet_definition 0 30 (by decide)).1⟩

/-! ## Claim C3 -/

/-- C3: additivity of count_primes: for a ≤ b < c ≤ max_stop,
count_primes(a, c) = count_primes(a, b) + count_primes(b+1, c). -/
theorem primesieve_C3_additivity (a b c : Nat) (hab : a ≤ b) (hbc : b < c)
    (hc : c ≤ max_stop) :
    count_primes a c = count_primes a b + count_primes (b + 1) c := by
  unfold count_primes
  rw [if_neg (by omega), if_neg (by omega), if_neg (by omega)]
  rw [show c + 1 - a = (b + 1 - a) + (c - b) from by omega]
  rw [countSat_split]
  rw [show a + (b + 1 - a) = b + 1 from by omega]
  rw [show c - b = c + 1 - (b + 1) from by omega]

/-- Witness for C3 at a = 1, b = 5, c = 10. -/
theorem primesieve_C3_witness :
    1 ≤ 5 ∧ 5 < 10 ∧ 10 ≤ max_stop
    ∧ count_primes 1 10 = count_primes 1 5 + count_primes 6 10 :=
  ⟨by decide, by decide, by decide, primesieve_C3_additivity 1 5 10 (by decide)
    (by decide) (by decide)⟩

/-! ## Claim C4 -/

/-- C4: for every thread count t ∈ {1, 2, 4, 8} (and any core count),
the parallel counting operations agree with their serial counterparts. -/
theorem primesieve_C4_parallel_serial (a b t cores : Nat) (hb : b ≤ max_stop)
    (ht : t = 1 ∨ t = 2 ∨ t = 4 ∨ t = 8) :
    parallel_count_primes a b t cores = count_primes a b
    ∧ parallel_count_twins a b t cores = count_twins a b :=
  ⟨parallelDispatch_eq isPrime a b t cores, parallelDispatch_eq twinPred a b t cores⟩

/-- Witness for C4 at a concrete input. -/
theorem primesieve_C4_witness :
    100 ≤ max_stop
    ∧ parallel_count_primes 0 100 4 2 = count_primes 0 100
    ∧ parallel_count_twins 0 100 4 2 = count_twins 0 100 := by
  refine ⟨by decide, ?_, ?_⟩
  · exact (primesieve_C4_parallel_serial 0 100 4 2 (by decide) (by simp)).1
  · exact (primesieve_C4_parallel_serial 0 100 4 2 (by decide) (by simp)).2

/-! ## Claims C6 and C7: error handling and max_stop -/

theorem countOp_ne_error (pred : Nat → Bool) (a b : Nat) (h : b ≤ max_stop) :
    (if max_stop < b then PRIMESIEVE_ERROR else countSat pred a (b + 1 - a))
      ≠ PRIMESIEVE_ERROR := by
  rw [if_neg (by omega)]
  have hle := countSat_le pred a (b + 1 - a)
  have hgap : max_stop + 1 < PRIMESIEVE_ERROR := by decide
  omega

/-- C6: count and nth-prime operations return the sentinel UINT64_MAX
(all 64 bits set) exactly on failure; stop > max_stop() is a failure,
while start > stop is not: counts then return 0 and print output is
empty. -/
theorem primesieve_C6_error_handling (a b n s : Nat) :
    (count_primes a b = PRIMESIEVE_ERROR ↔ max_stop < b)
    ∧ (count_twins a b = PRIMESIEVE_ERROR ↔ max_stop < b)
    ∧ (b < a → b ≤ max_stop → count_primes a b = 0 ∧ count_twins a b = 0)
    ∧ (b < a → print_primes a b = [])
    ∧ nth_prime 0 s = PRIMESIEVE_ERROR
    ∧ (NTH_PRIME_START_LIMIT < s → nth_prime n s = PRIMESIEVE_ERROR)
    ∧ (∀ i, i < 64 → PRIMESIEVE_ERROR.testBit i = true) := by
  refine ⟨⟨fun h => ?_, fun h => ?_⟩, ⟨fun h => ?_, fun h => ?_⟩,
    fun hba hbm => ⟨?_, ?_⟩, fun hba => ?_, ?_, fun hs => ?_, fun i hi => ?_⟩
  · by_contra hb
    exact countOp_ne_error isPrime a b (by omega) h
  · unfold count_primes
    rw [if_pos h]
  · by_contra hb
    exact countOp_ne_error twinPred a b (by omega) h
  · unfold count_twins
    rw [if_pos h]
  · unfold count_primes
    rw [if_neg (by omega), show b + 1 - a = 0 from by omega]
    rfl
  · unfold count_twins
    rw [if_neg (by omega), show b + 1 - a = 0 from by omega]
    rfl
  · unfold print_primes
    by_cases hbm : max_stop < b
    · rw [if_pos hbm]
    · rw [if_neg hbm, show b + 1 - a = 0 from by omega]
      rfl
  · rfl
  · unfold nth_prime
    by_cases hn0 : n = 0
    · subst hn0
      rfl
    · rw [if_neg (by simpa using hn0), if_pos hs]
  · show (PRIMESIEVE_ERROR).testBit i = true
    unfold PRIMESIEVE_ERROR
    rw [Nat.testBit_two_pow_sub_one]
    simpa using hi

/-- Witness for C6 at concrete inputs. -/
theorem primesieve_C6_witness :
    (3 < 5 ∧ 5 ≤ max_stop ∧ count_primes 7 5 = 0)
    ∧ (NTH_PRIME_START_LIMIT < NTH_PRIME_START_LIMIT + 1
        ∧ nth_prime 9 (NTH_PRIME_START_LIMIT + 1) = PRIMESIEVE_ERROR)
    ∧ 2 < 64 ∧ PRIMESIEVE_ERROR.testBit 2 = true := by
  refine ⟨⟨by decide, by decide, ?_⟩, ⟨by omega, ?_⟩, by decide, ?_⟩
  · exact ((primesieve_C6_error_handling 7 5 0 0).2.2.1 (by decide) (by decide)).1
  · exact (primesieve_C6_error_handling 0 0 9
      (NTH_PRIME_START_LIMIT + 1)).2.2.2.2.2.1 (by omega)
  · exact (primesieve_C6_error_handling 0 0 0 0).2.2.2.2.2.2 2 (by decide)

/-- C7: max_stop() is exactly (2^64 − 1) − (2^32 − 1)·10
= 18446744030759878665, the largest accepted stop; the purpose-section
bound 2^64 − 10·2^32 is 9 less than it. -/
theorem primesieve_C7_max_stop :
    max_stop = 18446744030759878665
    ∧ max_stop = (2 ^ 64 - 1) - (2 ^ 32 - 1) * 10
    ∧ 2 ^ 64 - 10 * 2 ^ 32 + 9 = max_stop
    ∧ (∀ a b, b ≤ max_stop → count_primes a b ≠ PRIMESIEVE_ERROR
        ∧ count_twins a b ≠ PRIMESIEVE_ERROR)
    ∧ (∀ a, count_primes a (max_stop + 1) = PRIMESIEVE_ERROR) := by
  refine ⟨by decide, rfl, by decide, fun a b hb => ⟨?_, ?_⟩, fun a => ?_⟩
  · exact countOp_ne_error isPrime a b hb
  · exact countOp_ne_error twinPred a b hb
  · unfold count_primes
    rw [if_pos (by omega)]

/-- Witness for C7 at a concrete input. -/
theorem primesieve_C7_witness :
    42 ≤ max_stop ∧ count_primes 0 42 ≠ PRIMESIEVE_ERROR :=
  ⟨by decide, ((primesieve_C7_max_stop.2.2.2.1) 0 42 (by decide)).1⟩

/-! ## Claim C9: the BIT masks -/

/-- C9: BITk = 255 − 2^k, and ANDing a byte with BITk clears exactly
bit k while leaving every other bit of the byte unchanged. -/
theorem primesieve_C9_bit_masks :
    ∀ k, k < 8 → (BIT k = 255 - 2 ^ k
      ∧ ∀ b, (b &&& BIT k).testBit k = false
        ∧ ∀ j, j < 8 → j ≠ k → (b &&& BIT k).testBit j = b.testBit j) := by
  intro k hk
  refine ⟨?_, fun b => ⟨?_, fun j hj hjk => ?_⟩⟩
  · interval_cases k <;> decide
  · rw [Nat.testBit_and]
    have hbit : (BIT k).testBit k = false := by interval_cases k <;> decide
    rw [hbit, Bool.and_false]
  · rw [Nat.testBit_and]
    have hbit : (BIT k).testBit j = true := by
      interval_cases k <;> interval_cases j <;> first | (exact absurd rfl hjk) | decide
    rw [hbit, Bool.and_true]

/-- Witness for C9 at k = 3, byte 200, other bit j = 5. -/
theorem primesieve_C9_witness :
    3 < 8 ∧ BIT 3 = 255 - 2 ^ 3
    ∧ (200 &&& BIT 3).testBit 3 = false
    ∧ (5 < 8 ∧ 5 ≠ 3 ∧ (200 &&& BIT 3).testBit 5 = (200 : Nat).testBit 5) := by
  refine ⟨by decide, (primesieve_C9_bit_masks 3 (by decide)).1,
    ((primesieve_C9_bit_masks 3 (by decide)).2 200).1,
    by decide, by decide,
    ((primesieve_C9_bit_masks 3 (by decide)).2 200).2 5 (by decide) (by decide)⟩

/-! ## Bit decomposition toolkit -/

theorem testBit_add_mul_pow_lt {a x w i : Nat} (ha : a < 2 ^ w) (hi : i < w) :
    (a + 2 ^ w * x).testBit i = a.testBit i := by
  have hmod : (a + 2 ^ w * x) % 2 ^ w = a := by
    rw [Nat.add_mul_mod_self_left, Nat.mod_eq_of_lt ha]
  conv_rhs => rw [← hmod]
  rw [Nat.testBit_mod_two_pow]
  simp [hi]

theorem testBit_add_mul_pow_ge {a x w i : Nat} (ha : a < 2 ^ w) (hi : w ≤ i) :
    (a + 2 ^ w * x).testBit i = x.testBit (i - w) := by
  have hdiv : (a + 2 ^ w * x) >>> w = x := by
    rw [Nat.shiftRight_eq_div_pow]
    rw [Nat.add_mul_div_left a x (Nat.pos_pow_of_pos w (by omega))]
    rw [Nat.div_eq_of_lt ha]
    omega
  calc (a + 2 ^ w * x).testBit i
      = (a + 2 ^ w * x).testBit (w + (i - w)) := by congr 1; omega
    _ = ((a + 2 ^ w * x) >>> w).testBit (i - w) := (Nat.testBit_shiftRight _).symm
    _ = x.testBit (i - w) := by rw [hdiv]

/-! ## Facts about bsf and clearing the lowest set bit -/

theorem bsfAux_spec : ∀ fuel w, w ≠ 0 → w ≤ fuel →
    (w.testBit (bsfAux w fuel) = true ∧ ∀ j, j < bsfAux w fuel → w.testBit j = false) := by
  intro fuel
  induction fuel with
  | zero => omega
  | succ fuel ih =>
    intro w hw hwf
    show (w.testBit (if w % 2 == 1 then 0 else 1 + bsfAux (w / 2) fuel) = true
      ∧ ∀ j, j < (if w % 2 == 1 then 0 else 1 + bsfAux (w / 2) fuel) → w.testBit j = false)
    simp only [beq_iff_eq]
    by_cases hodd : w % 2 = 1
    · rw [if_pos hodd]
      constructor
      · rw [Nat.testBit_zero]
        simp [hodd]
      · intro j hj
        omega
    · rw [if_neg hodd]
      have hw2 : w / 2 ≠ 0 := by omega
      have hw2f : w / 2 ≤ fuel := by omega
      obtain ⟨ih1, ih2⟩ := ih (w / 2) hw2 hw2f
      constructor
      · rw [show 1 + bsfAux (w / 2) fuel = bsfAux (w / 2) fuel + 1 from by omega]
        rw [Nat.testBit_add_one]
        exact ih1
      · intro j hj
        cases j with
        | zero =>
          rw [Nat.testBit_zero]
          simp
          omega
        | succ j' =>
          rw [Nat.testBit_add_one]
          exact ih2 j' (by omega)

theorem bsf_testBit {w : Nat} (hw : w ≠ 0) : w.testBit (bsf w) = true :=
  (bsfAux_spec w w hw (Nat.le_refl w)).1

theorem bsf_min {w : Nat} (hw : w ≠ 0) : ∀ j, j < bsf w → w.testBit j = false :=
  (bsfAux_spec w w hw (Nat.le_refl w)).2

theorem pred_testBit {w b : Nat} (hb1 : w.testBit b = true)
    (hb2 : ∀ j, j < b → w.testBit j = false) :
    ∀ j, (w - 1).testBit j
      = (if j < b then true else if j = b then false else w.testBit j) := by
  have hmod : w % 2 ^ b = 0 := by
    apply Nat.zero_of_testBit_eq_false
    intro i
    rw [Nat.testBit_mod_two_pow]
    by_cases hib : i < b
    · simp [hb2 i hib]
    · simp [hib]
  have hpow : 1 ≤ 2 ^ b := Nat.pos_pow_of_pos b (by omega)
  obtain ⟨t, hw⟩ : ∃ t, w = 2 ^ b * t :=
    ⟨w / 2 ^ b, (Nat.mul_div_cancel' (Nat.dvd_of_mod_eq_zero hmod)).symm⟩
  have h0 : w.testBit b = t.testBit 0 := by
    conv_lhs => rw [hw, show 2 ^ b * t = 0 + 2 ^ b * t from (Nat.zero_add _).symm]
    rw [testBit_add_mul_pow_ge hpow (Nat.le_refl b), Nat.sub_self]
  have htodd : t % 2 = 1 := by
    rw [h0, Nat.testBit_zero] at hb1
    simpa using hb1
  have ht1 : 1 ≤ t := by omega
  have hsplit : 2 ^ b * t = 2 ^ b * (t - 1) + 2 ^ b := by
    conv_rhs => rw [← Nat.mul_succ]
    congr 1
    omega
  have hw1 : w - 1 = (2 ^ b - 1) + 2 ^ b * (t - 1) := by
    omega
  intro j
  rw [hw1]
  by_cases hjb : j < b
  · rw [testBit_add_mul_pow_lt (by omega) hjb]
    rw [Nat.testBit_two_pow_sub_one]
    simp [hjb]
  · rw [testBit_add_mul_pow_ge (by omega) (by omega)]
    by_cases hjeq : j = b
    · subst hjeq
      rw [Nat.sub_self, Nat.testBit_zero]
      rw [if_neg hjb, if_pos rfl]
      simp
      try omega
    · rw [if_neg hjb, if_neg hjeq]
      conv_rhs => rw [hw, show 2 ^ b * t = 0 + 2 ^ b * t from (Nat.zero_add _).symm]
      rw [testBit_add_mul_pow_ge hpow (by omega)]
      cases hj : j - b with
      | zero => omega
      | succ i =>
        rw [Nat.testBit_add_one, Nat.testBit_add_one]
        congr 1
        omega

theorem land_pred_testBit {w : Nat} (hw : w ≠ 0) :
    ∀ j, (w &&& (w - 1)).testBit j
      = (if j = bsf w then false else w.testBit j) := by
  intro j
  rw [Nat.testBit_and]
  rw [pred_testBit (bsf_testBit hw) (bsf_min hw) j]
  by_cases hlt : j < bsf w
  · simp [hlt, bsf_min hw j hlt]
  · by_cases heq : j = bsf w
    · simp [heq, hlt]
    · simp [hlt, heq]

theorem land_pred_lt {w : Nat} (hw : w ≠ 0) : w &&& (w - 1) < w := by
  apply Nat.lt_of_testBit (bsf w)
  · rw [land_pred_testBit hw]
    simp
  · exact bsf_testBit hw
  · intro j hj
    rw [land_pred_testBit hw]
    rw [if_neg (by omega)]

/-! ## scanWord enumerates the set bits in ascending order -/

theorem filter_range_cons (p q : Nat → Bool) {m b : Nat} (hb : b < m)
    (hp0 : ∀ j, j < b → p j = false) (hpb : p b = true) (hqb : q b = false)
    (hagree : ∀ j, j ≠ b → q j = p j) :
    (List.range m).filter p = b :: (List.range m).filter q := by
  induction m with
  | zero => omega
  | succ m ih =>
    rw [List.range_succ, List.filter_append, List.filter_append]
    by_cases hbm : b < m
    · rw [ih hbm]
      rw [show (List.filter p [m]) = List.filter q [m] from by
        simp only [List.filter_cons, List.filter_nil]
        rw [hagree m (by omega)]]
      rfl
    · have hbm' : b = m := by omega
      subst hbm'
      have h1 : (List.range b).filter p = [] :=
        List.filter_eq_nil_iff.mpr fun a ha => by
          rw [hp0 a (List.mem_range.mp ha)]
          simp
      have h2 : (List.range b).filter q = [] :=
        List.filter_eq_nil_iff.mpr fun a ha => by
          rw [hagree a (by have := List.mem_range.mp ha; omega),
            hp0 a (List.mem_range.mp ha)]
          simp
      rw [h1, h2]
      simp [List.filter_cons, hpb, hqb]

theorem scanWord_eq (lb m : Nat) : ∀ w fuel, w ≤ fuel → w < 2 ^ m →
    scanWord lb w fuel
      = ((List.range m).filter (fun j => w.testBit j)).map
          (fun j => lb + bitValues32 j) := by
  intro w
  induction w using Nat.strong_induction_on with
  | _ w ih =>
    intro fuel hwf hwm
    cases fuel with
    | zero =>
      have hw0 : w = 0 := by omega
      subst hw0
      simp [scanWord, Nat.zero_testBit]
    | succ fuel =>
      by_cases hw0 : w = 0
      · subst hw0
        simp [scanWord, Nat.zero_testBit]
      · show (if w == 0 then []
          else (lb + bitValues32 (bsf w)) :: scanWord lb (w &&& (w - 1)) fuel) = _
        simp only [beq_iff_eq]
        rw [if_neg hw0]
        have hlt := land_pred_lt (w := w) hw0
        rw [ih (w &&& (w - 1)) hlt fuel (by omega) (by omega)]
        have hbsfm : bsf w < m := by
          by_contra hge
          have h1 := bsf_testBit (w := w) hw0
          have h2 : w.testBit (bsf w) = false :=
            Nat.testBit_lt_two_pow (lt_of_lt_of_le hwm
              (Nat.pow_le_pow_right (by omega) (by omega)))
          rw [h1] at h2
          exact Bool.noConfusion h2
        rw [filter_range_cons (fun j => w.testBit j)
          (fun j => (w &&& (w - 1)).testBit j) hbsfm (bsf_min hw0) (bsf_testBit hw0)
          (by
            show (w &&& (w - 1)).testBit (bsf w) = false
            rw [land_pred_testBit hw0]
            simp)
          (fun j hj => by
            show (w &&& (w - 1)).testBit j = w.testBit j
            rw [land_pred_testBit hw0, if_neg hj])]
        rfl

/-! ## The packed word decomposes into bytes -/

/-- Little-endian packing of a byte list into a number. -/
def packBytes : List Nat → Nat
  | [] => 0
  | b :: rest => b + 256 * packBytes rest

theorem packBytes_lt : ∀ bytes : List Nat, (∀ b ∈ bytes, b < 256) →
    packBytes bytes < 2 ^ (8 * bytes.length) := by
  intro bytes
  induction bytes with
  | nil => intro _; simp [packBytes]
  | cons b rest ih =>
    intro hb
    show b + 256 * packBytes rest < 2 ^ (8 * (rest.length + 1))
    have h1 : packBytes rest < 2 ^ (8 * rest.length) :=
      ih fun x hx => hb x (List.mem_cons_of_mem b hx)
    have h2 : b < 256 := hb b (List.mem_cons_self b rest)
    have h3 : 2 ^ (8 * (rest.length + 1)) = 256 * 2 ^ (8 * rest.length) := by
      rw [Nat.mul_add, Nat.mul_one, Nat.pow_add]
      ring
    omega

theorem bitValues32_shift (j : Nat) : bitValues32 (8 + j) = 30 + bitValues32 j := by
  unfold bitValues32
  rw [show (8 + j) / 8 = 1 + j / 8 from by omega, show (8 + j) % 8 = j % 8 from by omega]
  ring_nf

theorem filterMap_if_eq {α : Type} (p : Nat → Bool) (f : Nat → α) (l : List Nat) :
    (l.filterMap fun j => if p j then some (f j) else none) = (l.filter p).map f := by
  induction l with
  | nil => rfl
  | cons a l ih => cases hpa : p a <;> simp [List.filterMap_cons, List.filter_cons, hpa, ih]

theorem naiveByte_eq (lb b : Nat) :
    naiveByte lb b = ((List.range 8).filter (fun j => b.testBit j)).map
      (fun j => lb + bitValues8.getD j 0) :=
  filterMap_if_eq _ _ _

theorem filter_pack : ∀ (bytes : List Nat) (lb : Nat), (∀ b ∈ bytes, b < 256) →
    ((List.range (8 * bytes.length)).filter (fun j => (packBytes bytes).testBit j)).map
        (fun j => lb + bitValues32 j)
      = naiveGen lb bytes := by
  intro bytes
  induction bytes with
  | nil => intro lb _; rfl
  | cons b rest ih =>
    intro lb hbytes
    have hb : b < 256 := hbytes b (List.mem_cons_self b rest)
    have hrest : ∀ x ∈ rest, x < 256 := fun x hx => hbytes x (List.mem_cons_of_mem b hx)
    have hsplit : 8 * (b :: rest).length = 8 + 8 * rest.length := by
      simp [List.length_cons]
      ring
    rw [hsplit, List.range_add, List.filter_append, List.map_append]
    have hpack : packBytes (b :: rest) = b + 2 ^ 8 * packBytes rest := rfl
    show (((List.range 8).filter _).map _) ++ (((List.range (8 * rest.length)).map _).filter _).map _
      = naiveByte lb b ++ naiveGen (lb + 30) rest
    congr 1
    · rw [show ((List.range 8).filter fun j => (packBytes (b :: rest)).testBit j)
          = ((List.range 8).filter fun j => b.testBit j) from
        List.filter_congr fun j hj => by
          rw [hpack, testBit_add_mul_pow_lt hb (List.mem_range.mp hj)]]
      rw [naiveByte_eq]
      apply List.map_congr_left
      intro j hj
      have hj8 : j < 8 := List.mem_range.mp (List.mem_of_mem_filter hj)
      unfold bitValues32
      rw [show j / 8 = 0 from by omega, show j % 8 = j from by omega]
      omega
    · rw [List.filter_map, List.map_map]
      rw [show ((List.range (8 * rest.length)).filter
            ((fun j => (packBytes (b :: rest)).testBit j) ∘ (8 + ·)))
          = ((List.range (8 * rest.length)).filter fun j => (packBytes rest).testBit j) from
        List.filter_congr fun j _ => by
          show (packBytes (b :: rest)).testBit (8 + j) = (packBytes rest).testBit j
          rw [hpack, testBit_add_mul_pow_ge hb (by omega)]
          congr 1
          omega]
      rw [show (((List.range (8 * rest.length)).filter fun j => (packBytes rest).testBit j).map
            ((fun j => lb + bitValues32 j) ∘ (8 + ·)))
          = (((List.range (8 * rest.length)).filter fun j => (packBytes rest).testBit j).map
            fun j => (lb + 30) + bitValues32 j) from
        List.map_congr_left fun j _ => by
          show lb + bitValues32 (8 + j) = lb + 30 + bitValues32 j
          rw [bitValues32_shift]
          omega]
      exact ih (lb + 30) hrest

/-! ## GENERATE_PRIMES equals the naive per-bit scan -/

theorem scanByte_eq (lb b : Nat) (hb : b < 256) : scanWord lb b b = naiveByte lb b := by
  rw [scanWord_eq lb 8 b b (Nat.le_refl b) hb, naiveByte_eq]
  apply List.map_congr_left
  intro j hj
  have hj8 : j < 8 := List.mem_range.mp (List.mem_of_mem_filter hj)
  unfold bitValues32
  rw [show j / 8 = 0 from by omega, show j % 8 = j from by omega]
  omega

theorem scanWord4_eq (lb b0 b1 b2 b3 : Nat) (h0 : b0 < 256) (h1 : b1 < 256)
    (h2 : b2 < 256) (h3 : b3 < 256) :
    scanWord lb (word32 b0 b1 b2 b3) (word32 b0 b1 b2 b3)
      = naiveGen lb [b0, b1, b2, b3] := by
  have hpack : word32 b0 b1 b2 b3 = packBytes [b0, b1, b2, b3] := by
    show b0 + 256 * b1 + 65536 * b2 + 16777216 * b3
      = b0 + 256 * (b1 + 256 * (b2 + 256 * (b3 + 256 * 0)))
    ring
  have hmem : ∀ x ∈ [b0, b1, b2, b3], x < 256 := by
    intro x hx
    fin_cases hx <;> assumption
  have hlt : packBytes [b0, b1, b2, b3] < 2 ^ (8 * [b0, b1, b2, b3].length) :=
    packBytes_lt _ hmem
  rw [hpack, scanWord_eq lb (8 * [b0, b1, b2, b3].length) _ _ (Nat.le_refl _) hlt]
  exact filter_pack [b0, b1, b2, b3] lb hmem

theorem naiveGen_append (l1 l2 : List Nat) : ∀ lb,
    naiveGen lb (l1 ++ l2) = naiveGen lb l1 ++ naiveGen (lb + 30 * l1.length) l2 := by
  induction l1 with
  | nil => intro lb; simp [naiveGen]
  | cons b l1 ih =>
    intro lb
    show naiveByte lb b ++ naiveGen (lb + 30) (l1 ++ l2)
      = (naiveByte lb b ++ naiveGen (lb + 30) l1) ++ naiveGen (lb + 30 * (l1.length + 1)) l2
    rw [ih (lb + 30), List.append_assoc]
    rw [show lb + 30 + 30 * l1.length = lb + 30 * (l1.length + 1) from by ring_nf]

theorem generatePrimes_fst : ∀ (n : Nat) (bytes : List Nat), bytes.length ≤ n →
    ∀ lb, (∀ b ∈ bytes, b < 256) →
    (generatePrimes lb bytes).1 = naiveGen lb bytes := by
  intro n
  induction n with
  | zero =>
    intro bytes hlen lb _
    rcases bytes with _ | ⟨b, rest⟩
    · rfl
    · simp at hlen
  | succ n ih =>
    intro bytes hlen lb hb
    rcases bytes with _ | ⟨b0, rest0⟩
    · rfl
    · rcases rest0 with _ | ⟨b1, rest1⟩
      · show scanWord lb b0 b0 ++ (generatePrimes (lb + NUMBERS_PER_BYTE) []).1
          = naiveByte lb b0 ++ naiveGen (lb + 30) []
        rw [scanByte_eq lb b0 (hb b0 (by simp))]
        rfl
      · rcases rest1 with _ | ⟨b2, rest2⟩
        · show scanWord lb b0 b0 ++ (generatePrimes (lb + NUMBERS_PER_BYTE) [b1]).1
            = naiveByte lb b0 ++ naiveGen (lb + 30) [b1]
          rw [scanByte_eq lb b0 (hb b0 (by simp))]
          congr 1
          exact ih [b1] (by simp at hlen ⊢; omega) (lb + NUMBERS_PER_BYTE)
            (fun x hx => hb x (by simp at hx ⊢; simp [hx]))
        · rcases rest2 with _ | ⟨b3, rest3⟩
          · show scanWord lb b0 b0 ++ (generatePrimes (lb + NUMBERS_PER_BYTE) [b1, b2]).1
              = naiveByte lb b0 ++ naiveGen (lb + 30) [b1, b2]
            rw [scanByte_eq lb b0 (hb b0 (by simp))]
            congr 1
            exact ih [b1, b2] (by simp at hlen ⊢; omega) (lb + NUMBERS_PER_BYTE)
              (fun x hx => hb x (by simp at hx ⊢; rcases hx with h | h <;> simp [h]))
          · show scanWord lb (word32 b0 b1 b2 b3) (word32 b0 b1 b2 b3)
                ++ (generatePrimes (lb + NUMBERS_PER_BYTE * 4) rest3).1
              = naiveGen lb (b0 :: b1 :: b2 :: b3 :: rest3)
            rw [scanWord4_eq lb b0 b1 b2 b3 (hb b0 (by simp)) (hb b1 (by simp))
              (hb b2 (by simp)) (hb b3 (by simp))]
            rw [show (b0 :: b1 :: b2 :: b3 :: rest3) = [b0, b1, b2, b3] ++ rest3 from rfl]
            rw [naiveGen_append]
            congr 1
            rw [show lb + 30 * [b0, b1, b2, b3].length = lb + NUMBERS_PER_BYTE * 4 from by
              simp [NUMBERS_PER_BYTE]]
            exact ih rest3 (by simp at hlen; omega) _
              (fun x hx => hb x (by simp [hx]))

theorem generatePrimes_snd : ∀ (n : Nat) (bytes : List Nat), bytes.length ≤ n →
    ∀ lb, (generatePrimes lb bytes).2 = lb + NUMBERS_PER_BYTE * bytes.length := by
  intro n
  induction n with
  | zero =>
    intro bytes hlen lb
    rcases bytes with _ | ⟨b, rest⟩
    · simp [generatePrimes, NUMBERS_PER_BYTE]
    · simp at hlen
  | succ n ih =>
    intro bytes hlen lb
    rcases bytes with _ | ⟨b0, rest0⟩
    · simp [generatePrimes, NUMBERS_PER_BYTE]
    · rcases rest0 with _ | ⟨b1, rest1⟩
      · show (generatePrimes (lb + NUMBERS_PER_BYTE) []).2 = lb + NUMBERS_PER_BYTE * 1
        show lb + NUMBERS_PER_BYTE = lb + NUMBERS_PER_BYTE * 1
        ring
      · rcases rest1 with _ | ⟨b2, rest2⟩
        · show (generatePrimes (lb + NUMBERS_PER_BYTE) [b1]).2
            = lb + NUMBERS_PER_BYTE * 2
          rw [ih [b1] (by simp at hlen ⊢; omega) (lb + NUMBERS_PER_BYTE)]
          simp [NUMBERS_PER_BYTE]
        · rcases rest2 with _ | ⟨b3, rest3⟩
          · show (generatePrimes (lb + NUMBERS_PER_BYTE) [b1, b2]).2
              = lb + NUMBERS_PER_BYTE * 3
            rw [ih [b1, b2] (by simp at hlen ⊢; omega) (lb + NUMBERS_PER_BYTE)]
            simp [NUMBERS_PER_BYTE]
          · show (generatePrimes (lb + NUMBERS_PER_BYTE * 4) rest3).2
              = lb + NUMBERS_PER_BYTE * (rest3.length + 4)
            rw [ih rest3 (by simp at hlen; omega) (lb + NUMBERS_PER_BYTE * 4)]
            ring_nf

/-! ## The emitted values are strictly ascending -/

theorem bitValues8_getD_bounds (j : Nat) (hj : j < 8) :
    7 ≤ bitValues8.getD j 0 ∧ bitValues8.getD j 0 ≤ 31 := by
  interval_cases j <;> decide

theorem bitValues8_getD_mono {i j : Nat} (hi : i < 8) (hj : j < 8) :
    i < j → bitValues8.getD i 0 < bitValues8.getD j 0 := by
  interval_cases i <;> interval_cases j <;> decide

theorem naiveByte_mem {lb b x : Nat} (hx : x ∈ naiveByte lb b) :
    lb + 7 ≤ x ∧ x ≤ lb + 31 := by
  rw [naiveByte_eq] at hx
  obtain ⟨j, hj, rfl⟩ := List.mem_map.mp hx
  have hj8 : j < 8 := List.mem_range.mp (List.mem_of_mem_filter hj)
  have := bitValues8_getD_bounds j hj8
  omega

theorem naiveGen_mem : ∀ (bytes : List Nat) lb x, x ∈ naiveGen lb bytes → lb + 7 ≤ x := by
  intro bytes
  induction bytes with
  | nil => intro lb x hx; simp [naiveGen] at hx
  | cons b rest ih =>
    intro lb x hx
    rcases List.mem_append.mp hx with h | h
    · exact (naiveByte_mem h).1
    · have := ih (lb + 30) x h
      omega

theorem naiveByte_pairwise (lb b : Nat) : (naiveByte lb b).Pairwise (· < ·) := by
  rw [naiveByte_eq]
  rw [List.pairwise_map]
  have hpw : ((List.range 8).filter (fun j => b.testBit j)).Pairwise (· < ·) :=
    List.Pairwise.sublist (List.filter_sublist _) (List.pairwise_lt_range 8)
  apply hpw.imp_of_mem
  intro a c ha hc hac
  have ha8 : a < 8 := List.mem_range.mp (List.mem_of_mem_filter ha)
  have hc8 : c < 8 := List.mem_range.mp (List.mem_of_mem_filter hc)
  have := bitValues8_getD_mono ha8 hc8 hac
  omega

theorem naiveGen_pairwise : ∀ (bytes : List Nat) lb,
    (naiveGen lb bytes).Pairwise (· < ·) := by
  intro bytes
  induction bytes with
  | nil => intro lb; exact List.Pairwise.nil
  | cons b rest ih =>
    intro lb
    show (naiveByte lb b ++ naiveGen (lb + 30) rest).Pairwise (· < ·)
    rw [List.pairwise_append]
    refine ⟨naiveByte_pairwise lb b, ih (lb + 30), fun x hx y hy => ?_⟩
    have h1 := (naiveByte_mem hx).2
    have h2 := naiveGen_mem rest (lb + 30) y hy
    omega

/-! ## Claim C8 -/

/-- C8: for every sieve byte array and starting lowerBound, the
GENERATE_PRIMES word loop plus byte tail loop emits exactly one value
per set bit, namely lowerBound + 30·byte_index + bit_values[bit], in the
byte-then-bit order of the naive per-bit scan, and the emitted sequence
is strictly ascending. -/
theorem primesieve_C8_generate_order (sieve : List Nat) (lb : Nat)
    (hbytes : ∀ b ∈ sieve, b < 256) :
    (generatePrimes lb sieve).1 = naiveGen lb sieve
    ∧ ((generatePrimes lb sieve).1).Pairwise (· < ·) := by
  have h := generatePrimes_fst sieve.length sieve (Nat.le_refl _) lb hbytes
  refine ⟨h, ?_⟩
  rw [h]
  exact naiveGen_pairwise sieve lb

/-- Witness for C8 on a five-byte sieve (one 32-bit word plus one tail
byte). -/
theorem primesieve_C8_witness :
    (∀ b ∈ [129, 66, 255, 0, 3], b < 256)
    ∧ (generatePrimes 30 [129, 66, 255, 0, 3]).1 = naiveGen 30 [129, 66, 255, 0, 3]
    ∧ ((generatePrimes 30 [129, 66, 255, 0, 3]).1).Pairwise (· < ·) :=
  ⟨by decide, (primesieve_C8_generate_order [129, 66, 255, 0, 3] 30 (by decide)).1,
    (primesieve_C8_generate_order [129, 66, 255, 0, 3] 30 (by decide)).2⟩

/-! ## Claim C10 -/

/-- C10: after GENERATE_PRIMES completes, lowerBound has advanced by
exactly NUMBERS_PER_BYTE · sieveSize = 30 · sieveSize, independent of
the sieve contents. -/
theorem primesieve_C10_lowerbound_advance (sieve : List Nat) (lb : Nat) :
    (generatePrimes lb sieve).2 = lb + NUMBERS_PER_BYTE * sieve.length
    ∧ (generatePrimes lb sieve).2 = lb + 30 * sieve.length := by
  have h := generatePrimes_snd sieve.length sieve (Nat.le_refl _) lb
  exact ⟨h, h⟩

/-! ## nextPrime finds the least prime above its argument -/

theorem findPrimeFrom_spec : ∀ fuel c, (∃ p, Nat.Prime p ∧ c ≤ p ∧ p < c + fuel) →
    (Nat.Prime (findPrimeFrom c fuel)
     ∧ c ≤ findPrimeFrom c fuel
     ∧ ∀ q, Nat.Prime q → c ≤ q → findPrimeFrom c fuel ≤ q) := by
  intro fuel
  induction fuel with
  | zero =>
    intro c ⟨p, _, hcp, hp⟩
    omega
  | succ fuel ih =>
    intro c hex
    show Nat.Prime (if isPrime c then c else findPrimeFrom (c + 1) fuel)
      ∧ c ≤ (if isPrime c then c else findPrimeFrom (c + 1) fuel)
      ∧ ∀ q, Nat.Prime q → c ≤ q
          → (if isPrime c then c else findPrimeFrom (c + 1) fuel) ≤ q
    by_cases hc : isPrime c = true
    · rw [if_pos hc]
      exact ⟨(isPrime_iff c).mp hc, Nat.le_refl c, fun q _ hq => hq⟩
    · rw [if_neg hc]
      have hcnp : ¬ Nat.Prime c := fun h => hc ((isPrime_iff c).mpr h)
      obtain ⟨p, hp, hcp, hplt⟩ := hex
      have hnep : c ≠ p := fun he => hcnp (he.symm ▸ hp)
      have hex' : ∃ p, Nat.Prime p ∧ c + 1 ≤ p ∧ p < (c + 1) + fuel :=
        ⟨p, hp, by omega, by omega⟩
      obtain ⟨h1, h2, h3⟩ := ih (c + 1) hex'
      refine ⟨h1, by omega, fun q hq hcq => ?_⟩
      have hneq : c ≠ q := fun he => hcnp (he.symm ▸ hq)
      exact h3 q hq (by omega)

theorem nextPrime_spec (m : Nat) :
    Nat.Prime (nextPrime m) ∧ m < nextPrime m
    ∧ ∀ q, Nat.Prime q → m < q → nextPrime m ≤ q := by
  have hex : ∃ p, Nat.Prime p ∧ m + 1 ≤ p ∧ p < (m + 1) + (m + 2) := by
    rcases Nat.eq_zero_or_pos m with h | h
    · exact ⟨2, Nat.prime_two, by omega, by omega⟩
    · obtain ⟨p, hp, hmp, hple⟩ := Nat.exists_prime_lt_and_le_two_mul m (by omega)
      exact ⟨p, hp, by omega, by omega⟩
  obtain ⟨h1, h2, h3⟩ := findPrimeFrom_spec (m + 2) (m + 1) hex
  have hdef : nextPrime m = findPrimeFrom (m + 1) (m + 2) := rfl
  rw [hdef]
  exact ⟨h1, by omega, fun q hq hmq => h3 q hq (by omega)⟩

theorem count_no_sat {P : Nat → Prop} [DecidablePred P] :
    ∀ d a, (∀ x, a ≤ x → x < a + d → ¬ P x) → Nat.count P (a + d) = Nat.count P a := by
  intro d
  induction d with
  | zero => intro a _; rfl
  | succ d ih =>
    intro a hno
    have hidx : a + (d + 1) = (a + d) + 1 := by omega
    rw [hidx, Nat.count_succ]
    rw [ih a (fun x hx hxd => hno x hx (by omega))]
    rw [if_neg (hno (a + d) (by omega) (by omega))]
    omega

theorem count_nextPrime (m : Nat) :
    Nat.count Nat.Prime (nextPrime m + 1) = Nat.count Nat.Prime (m + 1) + 1 := by
  obtain ⟨hp, hlt, hmin⟩ := nextPrime_spec m
  rw [Nat.count_succ, if_pos hp]
  congr 1
  rw [show nextPrime m = (m + 1) + (nextPrime m - (m + 1)) from by omega]
  apply count_no_sat
  intro x hx hxd hpx
  have := hmin x hpx (by omega)
  omega

theorem nthPrimeAux_spec : ∀ k s,
    Nat.count Nat.Prime (nthPrimeAux s k + 1) = Nat.count Nat.Prime (s + 1) + k
    ∧ (1 ≤ k → Nat.Prime (nthPrimeAux s k)) := by
  intro k
  induction k with
  | zero => intro s; exact ⟨rfl, by omega⟩
  | succ k ih =>
    intro s
    show (Nat.count Nat.Prime (nthPrimeAux (nextPrime s) k + 1) = _ ∧ _)
    obtain ⟨ih1, ih2⟩ := ih (nextPrime s)
    constructor
    · rw [ih1, count_nextPrime]
      omega
    · intro _
      cases k with
      | zero => exact (nextPrime_spec s).1
      | succ k' => exact ih2 (by omega)

/-! ## The Erdős central-binomial bound: at least `10 ^ 7` primes up to `max_stop` -/

theorem centralBinom_le_pow (n : Nat) (hn : 0 < n) :
    Nat.centralBinom n ≤ (2 * n) ^ (Nat.count Nat.Prime (2 * n + 1)) := by
  have hpos : 0 < Nat.centralBinom n := Nat.centralBinom_pos n
  have hsub : (Nat.centralBinom n).factorization.support
      ⊆ (Finset.range (2 * n + 1)).filter Nat.Prime := by
    intro p hp
    have hfp : (Nat.centralBinom n).factorization p ≠ 0 := Finsupp.mem_support_iff.mp hp
    have hprime : p.Prime := by
      rw [Nat.support_factorization] at hp
      exact Nat.prime_of_mem_primeFactors hp
    have hple : p ≤ 2 * n := by
      calc p ≤ p ^ (Nat.centralBinom n).factorization p := Nat.le_self_pow hfp p
        _ ≤ 2 * n := Nat.pow_factorization_choose_le (by omega)
    exact Finset.mem_filter.mpr ⟨Finset.mem_range.mpr (by omega), hprime⟩
  calc Nat.centralBinom n
      = (Nat.centralBinom n).factorization.prod (fun p k => p ^ k) :=
        (Nat.factorization_prod_pow_eq_self hpos.ne').symm
    _ = ∏ p ∈ (Nat.centralBinom n).factorization.support,
          p ^ (Nat.centralBinom n).factorization p := rfl
    _ ≤ ∏ _p ∈ (Nat.centralBinom n).factorization.support, (2 * n) := by
        apply Finset.prod_le_prod'
        intro p hp
        exact Nat.pow_factorization_choose_le (by omega)
    _ = (2 * n) ^ (Nat.centralBinom n).factorization.support.card :=
        Finset.prod_const _
    _ ≤ (2 * n) ^ (Nat.count Nat.Prime (2 * n + 1)) := by
        rw [Nat.count_eq_card_filter_range]
        exact Nat.pow_le_pow_right (by omega) (Finset.card_le_card hsub)

theorem erdos_general (n c : Nat) (h4 : 4 ≤ n)
    (hcount : Nat.count Nat.Prime (2 * n + 1) ≤ c)
    (hn63 : n ≤ 2 ^ 63) (hbig : 63 + 64 * c < 2 * n) : False := by
  have hA : Nat.centralBinom n ≤ (2 * n) ^ (Nat.count Nat.Prime (2 * n + 1)) :=
    centralBinom_le_pow n (by omega)
  have hB : 4 ^ n < n * Nat.centralBinom n :=
    Nat.four_pow_lt_mul_centralBinom n h4
  have hchain : 4 ^ n < n * (2 * n) ^ c :=
    lt_of_lt_of_le hB (Nat.mul_le_mul (Nat.le_refl n)
      (le_trans hA (Nat.pow_le_pow_right (by omega) hcount)))
  have hub : n * (2 * n) ^ c ≤ 2 ^ 63 * (2 ^ 64) ^ c :=
    Nat.mul_le_mul hn63 (Nat.pow_le_pow_left (by omega) c)
  have heq1 : 2 ^ 63 * (2 ^ 64) ^ c = 2 ^ (63 + 64 * c) := by
    rw [← pow_mul, ← pow_add]
  have heq2 : (4 : Nat) ^ n = 2 ^ (2 * n) := by
    rw [show (4 : Nat) = 2 ^ 2 from rfl, ← pow_mul]
  have hlt2 : 2 ^ (2 * n) < 2 ^ (63 + 64 * c) := by
    rw [← heq1, ← heq2]
    exact lt_of_lt_of_le hchain hub
  have hexp := (Nat.pow_lt_pow_iff_right (by norm_num : (1 : Nat) < 2)).mp hlt2
  omega

theorem primeCount_max_stop : 10 ^ 7 ≤ Nat.count Nat.Prime max_stop := by
  by_contra hlt
  push_neg at hlt
  have hms : max_stop = 18446744030759878665 := by norm_num [max_stop]
  have hcount : Nat.count Nat.Prime (2 * 9223372015379939332 + 1) ≤ 10 ^ 7 - 1 := by
    have h2n : 2 * 9223372015379939332 + 1 = max_stop := by omega
    rw [h2n]
    omega
  exact erdos_general 9223372015379939332 (10 ^ 7 - 1) (by norm_num) hcount
    (by norm_num) (by norm_num)

/-! ## Bridging `count_primes` to `Nat.count` -/

theorem count_primes_count (q : Nat) (h : q ≤ max_stop) :
    count_primes 0 q = Nat.count Nat.Prime (q + 1) := by
  rw [count_primes_eq h, Nat.count_eq_card_filter_range]
  congr 1
  rw [← Nat.Ico_zero_eq_range, ← Nat.Ico_succ_right]

theorem count_prime_one : Nat.count Nat.Prime (0 + 1) = 0 := by
  simp [Nat.count_succ, Nat.count_zero, Nat.not_prime_zero]

theorem nthPrimeAux_le_max_stop (k : Nat) (hk : k ≤ 10 ^ 7) :
    nthPrimeAux 0 k ≤ max_stop := by
  cases k with
  | zero => exact Nat.zero_le _
  | succ j =>
    by_contra h
    push_neg at h
    obtain ⟨hcount, hprime⟩ := nthPrimeAux_spec (j + 1) 0
    have hp := hprime (by omega)
    rw [Nat.count_succ, if_pos hp, count_prime_one] at hcount
    have hmono : Nat.count Nat.Prime max_stop
        ≤ Nat.count Nat.Prime (nthPrimeAux 0 (j + 1)) :=
      Nat.count_monotone Nat.Prime (by omega)
    have hms := primeCount_max_stop
    omega

theorem nth_prime_eq_aux (k : Nat) (h1 : 1 ≤ k) :
    nth_prime k 0 = nthPrimeAux 0 k := by
  unfold nth_prime
  rw [if_neg (by simp only [beq_iff_eq]; omega),
      if_neg (Nat.not_lt.mpr (Nat.zero_le _))]

theorem nth_prime_roundtrip (k : Nat) (h1 : 1 ≤ k) (h2 : k ≤ 10 ^ 7) :
    Nat.Prime (nth_prime k 0) ∧ count_primes 0 (nth_prime k 0) = k := by
  obtain ⟨hcount, hprime⟩ := nthPrimeAux_spec k 0
  have hle := nthPrimeAux_le_max_stop k h2
  rw [nth_prime_eq_aux k h1]
  refine ⟨hprime h1, ?_⟩
  rw [count_primes_count _ hle, hcount, count_prime_one]
  omega

theorem count_succ_prime_inj (p q : Nat) (hp : Nat.Prime p) (hq : Nat.Prime q)
    (h : Nat.count Nat.Prime (p + 1) = Nat.count Nat.Prime (q + 1)) : p = q := by
  rcases Nat.lt_trichotomy p q with hlt | heq | hlt
  · have h1 : Nat.count Nat.Prime (p + 1) ≤ Nat.count Nat.Prime q :=
      Nat.count_monotone Nat.Prime (by omega)
    have hq1 : Nat.count Nat.Prime (q + 1) = Nat.count Nat.Prime q + 1 := by
      rw [Nat.count_succ, if_pos hq]
    omega
  · exact heq
  · have h1 : Nat.count Nat.Prime (q + 1) ≤ Nat.count Nat.Prime p :=
      Nat.count_monotone Nat.Prime (by omega)
    have hp1 : Nat.count Nat.Prime (p + 1) = Nat.count Nat.Prime p + 1 := by
      rw [Nat.count_succ, if_pos hp]
    omega


/-! ## Verified SWAR popcount and bit-mask sieve -/

theorem popc_zero : popc 0 = 0 := by simp [popc]

theorem popc_step (n : Nat) : popc n = n % 2 + popc (n / 2) := by
  cases n with
  | zero => simp [popc]
  | succ k => rw [popc]

theorem popc_add_pow_mul (w : Nat) :
    ∀ a b, a < 2 ^ w → popc (a + 2 ^ w * b) = popc a + popc b := by
  induction w with
  | zero =>
    intro a b ha
    interval_cases a
    simp [popc_zero]
  | succ w ih =>
    intro a b ha
    rw [popc_step (a + 2 ^ (w + 1) * b), popc_step a]
    have hmul : 2 ^ (w + 1) * b = 2 * (2 ^ w * b) := by ring
    have h1 : (a + 2 ^ (w + 1) * b) % 2 = a % 2 := by
      rw [hmul, Nat.add_mul_mod_self_left]
    have h2 : (a + 2 ^ (w + 1) * b) / 2 = a / 2 + 2 ^ w * b := by
      rw [hmul, Nat.add_mul_div_left _ _ (by norm_num)]
    have ha2 : a / 2 < 2 ^ w := by
      rw [pow_succ] at ha
      exact Nat.div_lt_of_lt_mul (by omega)
    rw [h1, h2, ih (a / 2) b ha2]
    omega

theorem popc_le (w : Nat) : ∀ n, n < 2 ^ w → popc n ≤ w := by
  induction w with
  | zero =>
    intro n hn
    interval_cases n
    simp [popc_zero]
  | succ w ih =>
    intro n hn
    rw [popc_step]
    have hn2 : n / 2 < 2 ^ w := by
      rw [pow_succ] at hn
      exact Nat.div_lt_of_lt_mul (by omega)
    have := ih (n / 2) hn2
    omega

theorem ofF_lt (w : Nat) : ∀ L : List Nat,
    (∀ a ∈ L, a < 2 ^ w) → ofF w L < 2 ^ (w * L.length) := by
  intro L
  induction L with
  | nil => intro _; simp [ofF]
  | cons a T ih =>
    intro hent
    have ha : a < 2 ^ w := hent a (List.mem_cons_self a T)
    have hT : ofF w T < 2 ^ (w * T.length) :=
      ih (fun x hx => hent x (List.mem_cons_of_mem a hx))
    show a + 2 ^ w * ofF w T < 2 ^ (w * (T.length + 1))
    have hpow : 2 ^ (w * (T.length + 1)) = 2 ^ w * 2 ^ (w * T.length) := by
      rw [← pow_add]
      ring_nf
    rw [hpow]
    calc a + 2 ^ w * ofF w T
        < 2 ^ w + 2 ^ w * ofF w T := by omega
      _ = 2 ^ w * (ofF w T + 1) := by ring
      _ ≤ 2 ^ w * 2 ^ (w * T.length) :=
          Nat.mul_le_mul_left _ (by omega)

theorem popc_ofF (w : Nat) : ∀ L : List Nat,
    (∀ a ∈ L, a < 2 ^ w) → popc (ofF w L) = (L.map popc).sum := by
  intro L
  induction L with
  | nil => intro _; simp [ofF, popc_zero]
  | cons a T ih =>
    intro hent
    have ha : a < 2 ^ w := hent a (List.mem_cons_self a T)
    show popc (a + 2 ^ w * ofF w T) = popc a + (T.map popc).sum
    rw [popc_add_pow_mul w a (ofF w T) ha,
      ih (fun x hx => hent x (List.mem_cons_of_mem a hx))]

theorem testBit_ofF (W : Nat) :
    ∀ (L : List Nat), (∀ a ∈ L, a < 2 ^ W) →
    ∀ i r, r < W → (ofF W L).testBit (W * i + r) = (L.getD i 0).testBit r := by
  intro L
  induction L with
  | nil =>
    intro _ i r _
    simp [ofF, Nat.zero_testBit, List.getD]
  | cons a T ih =>
    intro hent i r hr
    have ha : a < 2 ^ W := hent a (List.mem_cons_self a T)
    have hT : ∀ x ∈ T, x < 2 ^ W := fun x hx => hent x (List.mem_cons_of_mem a hx)
    cases i with
    | zero =>
      show (a + 2 ^ W * ofF W T).testBit (W * 0 + r) = a.testBit r
      rw [show W * 0 + r = r from by omega]
      exact testBit_add_mul_pow_lt ha hr
    | succ i =>
      show (a + 2 ^ W * ofF W T).testBit (W * (i + 1) + r) = (T.getD i 0).testBit r
      rw [testBit_add_mul_pow_ge ha (by nlinarith [Nat.le_refl W]),
        show W * (i + 1) + r - W = W * i + r from by ring_nf; omega]
      exact ih hT i r hr

theorem geom_mul (W : Nat) : ∀ m : Nat,
    (2 ^ W - 1) * ofF W (List.replicate m 1) = 2 ^ (W * m) - 1 := by
  intro m
  induction m with
  | zero => simp [ofF]
  | succ m ih =>
    rw [List.replicate_succ]
    show (2 ^ W - 1) * (1 + 2 ^ W * ofF W (List.replicate m 1)) = 2 ^ (W * (m + 1)) - 1
    have hA : 1 ≤ 2 ^ W := Nat.one_le_two_pow
    have hB : 1 ≤ 2 ^ (W * m) := Nat.one_le_two_pow
    have hpow : 2 ^ (W * (m + 1)) = 2 ^ W * 2 ^ (W * m) := by
      rw [← pow_add]
      ring_nf
    rw [hpow]
    have hAB : 1 ≤ 2 ^ W * 2 ^ (W * m) := by
      calc 1 = 1 * 1 := by norm_num
        _ ≤ 2 ^ W * 2 ^ (W * m) := Nat.mul_le_mul hA hB
    zify [hA, hB, hAB] at ih ⊢
    linear_combination (2 : Int) ^ W * ih

theorem repMask_eq_ofF (W m : Nat) (hW : 0 < W) :
    repMask W m = ofF W (List.replicate m 1) := by
  have h := geom_mul W m
  have hpos : 0 < 2 ^ W - 1 := by
    have : (2 : Nat) ^ 1 ≤ 2 ^ W := Nat.pow_le_pow_right (by norm_num) hW
    omega
  unfold repMask
  rw [← h, Nat.mul_div_cancel_left _ hpos]

theorem mul_ofF_replicate (W c : Nat) : ∀ m,
    c * ofF W (List.replicate m 1) = ofF W (List.replicate m c) := by
  intro m
  induction m with
  | zero => simp [ofF]
  | succ m ih =>
    rw [List.replicate_succ, List.replicate_succ]
    show c * (1 + 2 ^ W * ofF W (List.replicate m 1))
      = c + 2 ^ W * ofF W (List.replicate m c)
    rw [← ih]
    ring

theorem mask_eq_ofF (w m : Nat) (hw : 0 < w) :
    (2 ^ w - 1) * repMask (2 * w) m
      = ofF (2 * w) (List.replicate m (2 ^ w - 1)) := by
  rw [repMask_eq_ofF (2 * w) m (by omega), mul_ofF_replicate]

theorem getD_map_zero (f : Nat → Nat) (h0 : f 0 = 0) :
    ∀ (K : List Nat) (i : Nat), (K.map f).getD i 0 = f (K.getD i 0) := by
  intro K
  induction K with
  | nil => intro i; simp [h0]
  | cons a T ih =>
    intro i
    cases i with
    | zero => rfl
    | succ i =>
      show (T.map f).getD i 0 = f (T.getD i 0)
      exact ih i

theorem getD_replicate_lt {c m i : Nat} (h : i < m) :
    (List.replicate m c).getD i 0 = c := by
  induction m generalizing i with
  | zero => omega
  | succ m ih =>
    rw [List.replicate_succ]
    cases i with
    | zero => rfl
    | succ i =>
      show (List.replicate m c).getD i 0 = c
      exact ih (by omega)

theorem getD_lt_of_forall {K : List Nat} {B : Nat}
    (hent : ∀ a ∈ K, a < B) (hB : 0 < B) (i : Nat) : K.getD i 0 < B := by
  by_cases h : i < K.length
  · rw [List.getD_eq_getElem K 0 h]
    exact hent _ (List.getElem_mem h)
  · rw [List.getD_eq_default K 0 (by omega)]
    exact hB

theorem ofF_land_mask (w m : Nat) (hw : 0 < w) (K : List Nat) (hlen : K.length ≤ m)
    (hent : ∀ a ∈ K, a < 2 ^ (2 * w)) :
    ofF (2 * w) K &&& ((2 ^ w - 1) * repMask (2 * w) m)
      = ofF (2 * w) (K.map (fun a => a % 2 ^ w)) := by
  have hww : (2:Nat) ^ w ≤ 2 ^ (2 * w) := Nat.pow_le_pow_right (by norm_num) (by omega)
  have h0w : (1:Nat) ≤ 2 ^ w := Nat.one_le_two_pow
  have hentm : ∀ a ∈ List.replicate m (2 ^ w - 1), a < 2 ^ (2 * w) := by
    intro a ha
    rw [List.eq_of_mem_replicate ha]
    omega
  have hentq : ∀ a ∈ K.map (fun a => a % 2 ^ w), a < 2 ^ (2 * w) := by
    intro a ha
    obtain ⟨b, _, rfl⟩ := List.mem_map.mp ha
    have := Nat.mod_lt b (show 0 < 2 ^ w from Nat.pos_pow_of_pos _ (by norm_num))
    omega
  apply Nat.eq_of_testBit_eq
  intro j
  obtain ⟨i, r, hr, rfl⟩ : ∃ i r, r < 2 * w ∧ j = (2 * w) * i + r :=
    ⟨j / (2 * w), j % (2 * w), Nat.mod_lt j (by omega),
      (Nat.div_add_mod j (2 * w)).symm⟩
  rw [Nat.testBit_and, mask_eq_ofF w m hw,
    testBit_ofF (2 * w) K hent i r hr,
    testBit_ofF (2 * w) (List.replicate m (2 ^ w - 1)) hentm i r hr,
    testBit_ofF (2 * w) (K.map (fun a => a % 2 ^ w)) hentq i r hr,
    getD_map_zero (fun a => a % 2 ^ w) (by simp) K i,
    Nat.testBit_mod_two_pow]
  by_cases him : i < m
  · rw [getD_replicate_lt him, Nat.testBit_two_pow_sub_one]
    exact Bool.and_comm _ _
  · rw [List.getD_eq_default _ _ (show K.length ≤ i by omega),
      List.getD_eq_default _ _ (by simp; omega)]
    simp [Nat.zero_testBit]

theorem ofF_shift_land_mask (w m : Nat) (hw : 0 < w) (K : List Nat)
    (hlen : K.length ≤ m) (hent : ∀ a ∈ K, a < 2 ^ (2 * w)) :
    (ofF (2 * w) K >>> w) &&& ((2 ^ w - 1) * repMask (2 * w) m)
      = ofF (2 * w) (K.map (fun a => a / 2 ^ w)) := by
  have hww : (2:Nat) ^ w ≤ 2 ^ (2 * w) := Nat.pow_le_pow_right (by norm_num) (by omega)
  have hpow2 : (2:Nat) ^ (2 * w) = 2 ^ w * 2 ^ w := by
    rw [two_mul, pow_add]
  have hdivlt : ∀ a : Nat, a < 2 ^ (2 * w) → a / 2 ^ w < 2 ^ w := by
    intro a ha
    apply Nat.div_lt_of_lt_mul
    omega
  have h0w : (1:Nat) ≤ 2 ^ w := Nat.one_le_two_pow
  have hentm : ∀ a ∈ List.replicate m (2 ^ w - 1), a < 2 ^ (2 * w) := by
    intro a ha
    rw [List.eq_of_mem_replicate ha]
    omega
  have hentq : ∀ a ∈ K.map (fun a => a / 2 ^ w), a < 2 ^ (2 * w) := by
    intro a ha
    obtain ⟨b, hb, rfl⟩ := List.mem_map.mp ha
    have := hdivlt b (hent b hb)
    omega
  apply Nat.eq_of_testBit_eq
  intro j
  obtain ⟨i, r, hr, rfl⟩ : ∃ i r, r < 2 * w ∧ j = (2 * w) * i + r :=
    ⟨j / (2 * w), j % (2 * w), Nat.mod_lt j (by omega),
      (Nat.div_add_mod j (2 * w)).symm⟩
  rw [Nat.testBit_and, Nat.testBit_shiftRight, mask_eq_ofF w m hw,
    testBit_ofF (2 * w) (List.replicate m (2 ^ w - 1)) hentm i r hr,
    testBit_ofF (2 * w) (K.map (fun a => a / 2 ^ w)) hentq i r hr,
    getD_map_zero (fun a => a / 2 ^ w) (by simp) K i]
  have hdivbit : ∀ (n k : Nat), (n / 2 ^ w).testBit k = n.testBit (w + k) := by
    intro n k
    rw [← Nat.shiftRight_eq_div_pow, Nat.testBit_shiftRight]
  rw [hdivbit]
  by_cases hrw : r < w
  · have hidx : w + ((2 * w) * i + r) = (2 * w) * i + (w + r) := by omega
    rw [hidx, testBit_ofF (2 * w) K hent i (w + r) (by omega)]
    by_cases him : i < m
    · rw [getD_replicate_lt him, Nat.testBit_two_pow_sub_one]
      simp [hrw]
    · rw [List.getD_eq_default _ _ (show K.length ≤ i by omega),
        List.getD_eq_default _ _ (by simp; omega)]
      simp [Nat.zero_testBit]
  · by_cases him : i < m
    · rw [getD_replicate_lt him, Nat.testBit_two_pow_sub_one,
        show decide (r < w) = false from by simp [hrw], Bool.and_false]
      have hv2 : K.getD i 0 < 2 ^ (w + r) :=
        lt_of_lt_of_le (getD_lt_of_forall hent (by positivity) i)
          (Nat.pow_le_pow_right (by norm_num) (by omega))
      rw [Nat.testBit_lt_two_pow hv2]
    · rw [List.getD_eq_default _ _ (show K.length ≤ i by omega),
        List.getD_eq_default _ _ (by simp; omega)]
      simp [Nat.zero_testBit]

theorem ofF_add (W : Nat) : ∀ P Q : List Nat, P.length = Q.length →
    ofF W P + ofF W Q = ofF W (List.zipWith (· + ·) P Q) := by
  intro P
  induction P with
  | nil =>
    intro Q h
    cases Q with
    | nil => rfl
    | cons b S => simp at h
  | cons a T ih =>
    intro Q h
    cases Q with
    | nil => simp at h
    | cons b S =>
      show (a + 2 ^ W * ofF W T) + (b + 2 ^ W * ofF W S)
        = (a + b) + 2 ^ W * ofF W (List.zipWith (· + ·) T S)
      rw [← ih S (by simpa using h)]
      ring

theorem zip_mod_div (w : Nat) : ∀ K : List Nat,
    List.zipWith (· + ·) (K.map (fun a => a % 2 ^ w)) (K.map (fun a => a / 2 ^ w))
      = K.map (fun a => a % 2 ^ w + a / 2 ^ w) := by
  intro K
  induction K with
  | nil => rfl
  | cons a T ih =>
    show (a % 2 ^ w + a / 2 ^ w) :: List.zipWith (· + ·) _ _ = _ :: _
    rw [ih]

theorem ofF_pairup (w : Nat) : ∀ L : List Nat,
    ofF w L = ofF (2 * w) (pairup w L) := by
  have hpow2 : (2:Nat) ^ (2 * w) = 2 ^ w * 2 ^ w := by rw [two_mul, pow_add]
  intro L
  induction L using pairup.induct w with
  | case1 => rfl
  | case2 a =>
    show ofF w [a] = ofF (2 * w) (pairup w [a])
    simp [pairup, ofF]
  | case3 a b t ih =>
    show a + 2 ^ w * (b + 2 ^ w * ofF w t)
      = (a + 2 ^ w * b) + 2 ^ (2 * w) * ofF (2 * w) (pairup w t)
    rw [← ih, hpow2]
    ring

theorem pairup_length (w : Nat) : ∀ L : List Nat,
    (pairup w L).length = (L.length + 1) / 2 := by
  intro L
  induction L using pairup.induct w with
  | case1 => rfl
  | case2 a => simp [pairup]
  | case3 a b t ih =>
    show ((a + 2 ^ w * b) :: pairup w t).length = ((a :: b :: t).length + 1) / 2
    simp only [List.length_cons]
    omega

theorem pairup_ent (w : Nat) : ∀ L : List Nat, (∀ a ∈ L, a < 2 ^ w) →
    ∀ c ∈ pairup w L, c < 2 ^ (2 * w) := by
  have hpow2 : (2:Nat) ^ (2 * w) = 2 ^ w * 2 ^ w := by rw [two_mul, pow_add]
  intro L
  induction L using pairup.induct w with
  | case1 => intro _ c hc; simp [pairup] at hc
  | case2 a =>
    intro hent c hc
    rw [List.mem_singleton.mp hc]
    have h1 := hent a (List.mem_cons_self a [])
    have h2 : (2:Nat) ^ w ≤ 2 ^ (2 * w) := Nat.pow_le_pow_right (by norm_num) (by omega)
    omega
  | case3 a b t ih =>
    intro hent c hc
    rcases List.mem_cons.mp hc with hc | hc
    · subst hc
      have ha := hent a (List.mem_cons_self a (b :: t))
      have hb := hent b (List.mem_cons_of_mem a (List.mem_cons_self b t))
      have hmul : 2 ^ w * (b + 1) ≤ 2 ^ w * 2 ^ w := Nat.mul_le_mul_left _ (by omega)
      rw [hpow2]
      rw [Nat.mul_add, Nat.mul_one] at hmul
      omega
    · exact ih (fun x hx => hent x
        (List.mem_cons_of_mem a (List.mem_cons_of_mem b hx))) c hc

theorem map_split_pairup (w : Nat) : ∀ L : List Nat, (∀ a ∈ L, a < 2 ^ w) →
    (pairup w L).map (fun c => c % 2 ^ w + c / 2 ^ w) = pairSum L := by
  intro L
  induction L using pairup.induct w with
  | case1 => intro _; rfl
  | case2 a =>
    intro hent
    have ha := hent a (List.mem_cons_self a [])
    show [a % 2 ^ w + a / 2 ^ w] = [a]
    rw [Nat.mod_eq_of_lt ha, Nat.div_eq_of_lt ha]
    norm_num
  | case3 a b t ih =>
    intro hent
    have ha := hent a (List.mem_cons_self a (b :: t))
    show ((a + 2 ^ w * b) % 2 ^ w + (a + 2 ^ w * b) / 2 ^ w) :: _ = (a + b) :: pairSum t
    have hmod : (a + 2 ^ w * b) % 2 ^ w = a := by
      rw [Nat.add_mul_mod_self_left, Nat.mod_eq_of_lt ha]
    have hdiv : (a + 2 ^ w * b) / 2 ^ w = b := by
      rw [Nat.add_mul_div_left a b (Nat.pos_pow_of_pos _ (by norm_num)),
        Nat.div_eq_of_lt ha]
      omega
    rw [hmod, hdiv,
      ih (fun x hx => hent x (List.mem_cons_of_mem a (List.mem_cons_of_mem b hx)))]

theorem pairSum_sum : ∀ L : List Nat, (pairSum L).sum = L.sum := by
  intro L
  induction L using pairSum.induct with
  | case1 => rfl
  | case2 a => simp [pairSum]
  | case3 a b t ih =>
    show ((a + b) :: pairSum t).sum = (a :: b :: t).sum
    simp only [List.sum_cons]
    rw [ih]
    omega

theorem pairSum_length : ∀ L : List Nat, (pairSum L).length = (L.length + 1) / 2 := by
  intro L
  induction L using pairSum.induct with
  | case1 => rfl
  | case2 a => simp [pairSum]
  | case3 a b t ih =>
    show ((a + b) :: pairSum t).length = ((a :: b :: t).length + 1) / 2
    simp only [List.length_cons]
    omega

theorem pairSum_ent (E : Nat) : ∀ L : List Nat, (∀ a ∈ L, a ≤ E) →
    ∀ c ∈ pairSum L, c ≤ 2 * E := by
  intro L
  induction L using pairSum.induct with
  | case1 => intro _ c hc; simp [pairSum] at hc
  | case2 a =>
    intro hent c hc
    rw [List.mem_singleton.mp hc]
    have := hent a (List.mem_cons_self a [])
    omega
  | case3 a b t ih =>
    intro hent c hc
    rcases List.mem_cons.mp hc with hc | hc
    · have ha := hent a (List.mem_cons_self a (b :: t))
      have hb := hent b (List.mem_cons_of_mem a (List.mem_cons_self b t))
      omega
    · exact ih (fun x hx => hent x
        (List.mem_cons_of_mem a (List.mem_cons_of_mem b hx))) c hc

theorem swarRound_ofF (w m : Nat) (hw : 0 < w) (L : List Nat)
    (hlen : L.length ≤ 2 * m) (hent : ∀ a ∈ L, a < 2 ^ w) :
    swarRound w m (ofF w L) = ofF (2 * w) (pairSum L) := by
  have hK : ∀ a ∈ pairup w L, a < 2 ^ (2 * w) := pairup_ent w L hent
  have hKlen : (pairup w L).length ≤ m := by
    rw [pairup_length]
    omega
  show (ofF w L &&& ((2 ^ w - 1) * repMask (2 * w) m))
      + ((ofF w L >>> w) &&& ((2 ^ w - 1) * repMask (2 * w) m))
    = ofF (2 * w) (pairSum L)
  rw [ofF_pairup w L,
    ofF_land_mask w m hw _ hKlen hK,
    ofF_shift_land_mask w m hw _ hKlen hK,
    ofF_add (2 * w) _ _ (by simp),
    zip_mod_div w (pairup w L),
    map_split_pairup w L hent]

theorem bitsF_length : ∀ f n, (bitsF f n).length = f := by
  intro f
  induction f with
  | zero => intro n; rfl
  | succ f ih =>
    intro n
    show (bitsF f (n / 2)).length + 1 = f + 1
    rw [ih]

theorem bitsF_ent : ∀ f n, ∀ a ∈ bitsF f n, a < 2 := by
  intro f
  induction f with
  | zero => intro n a ha; simp [bitsF] at ha
  | succ f ih =>
    intro n a ha
    rcases List.mem_cons.mp ha with h | h
    · subst h
      exact Nat.mod_lt _ (by norm_num)
    · exact ih (n / 2) a h

theorem ofF_bitsF : ∀ f n, n < 2 ^ f → ofF 1 (bitsF f n) = n := by
  intro f
  induction f with
  | zero =>
    intro n hn
    interval_cases n
    rfl
  | succ f ih =>
    intro n hn
    show n % 2 + 2 ^ 1 * ofF 1 (bitsF f (n / 2)) = n
    have hn2 : n / 2 < 2 ^ f := by
      rw [pow_succ] at hn
      exact Nat.div_lt_of_lt_mul (by omega)
    rw [ih (n / 2) hn2]
    omega

theorem bitsF_sum : ∀ f n, n < 2 ^ f → (bitsF f n).sum = popc n := by
  intro f
  induction f with
  | zero =>
    intro n hn
    interval_cases n
    simp [bitsF, popc_zero]
  | succ f ih =>
    intro n hn
    show n % 2 + (bitsF f (n / 2)).sum = popc n
    have hn2 : n / 2 < 2 ^ f := by
      rw [pow_succ] at hn
      exact Nat.div_lt_of_lt_mul (by omega)
    rw [ih (n / 2) hn2, ← popc_step]

theorem ofF_mod (W : Nat) : ∀ L : List Nat,
    ofF W L % (2 ^ W - 1) = L.sum % (2 ^ W - 1) := by
  intro L
  induction L with
  | nil => rfl
  | cons a T ih =>
    show (a + 2 ^ W * ofF W T) % (2 ^ W - 1) = (a + T.sum) % (2 ^ W - 1)
    have h1 : (2:Nat) ^ W ≡ 1 [MOD 2 ^ W - 1] :=
      ((Nat.modEq_iff_dvd' Nat.one_le_two_pow).mpr dvd_rfl).symm
    calc (a + 2 ^ W * ofF W T) % (2 ^ W - 1)
        = (a + 1 * ofF W T) % (2 ^ W - 1) :=
          Nat.ModEq.add_left a (Nat.ModEq.mul_right (ofF W T) h1)
      _ = (a + T.sum) % (2 ^ W - 1) := by
          rw [one_mul]
          exact Nat.ModEq.add_left a ih

theorem popc32_eq (m X : Nat) (hm : 0 < m) (hX : X < 2 ^ (32 * m))
    (hcnt : 32 * m < 2 ^ 32 - 1) : popc32 m X = popc X := by
  set L0 := bitsF (32 * m) X with hL0def
  have hL0len : L0.length = 32 * m := bitsF_length _ _
  have hL0ent : ∀ a ∈ L0, a < 2 ^ 1 := by
    intro a ha
    have := bitsF_ent (32 * m) X a ha
    omega
  have hX0 : ofF 1 L0 = X := ofF_bitsF _ _ hX
  have hL0sum : L0.sum = popc X := bitsF_sum _ _ hX
  set L1 := pairSum L0 with hL1def
  have hL1len : L1.length = 16 * m := by
    rw [hL1def, pairSum_length, hL0len]
    omega
  have hL1ent : ∀ a ∈ L1, a ≤ 2 := by
    intro a ha
    have := pairSum_ent 1 L0 (fun x hx => by have := hL0ent x hx; omega) a ha
    omega
  have hL1sum : L1.sum = popc X := by rw [hL1def, pairSum_sum, hL0sum]
  have h1 : swarRound 1 (16 * m) X = ofF 2 L1 := by
    rw [← hX0]
    have := swarRound_ofF 1 (16 * m) (by norm_num) L0 (by omega) hL0ent
    simpa using this
  set L2 := pairSum L1 with hL2def
  have hL2len : L2.length = 8 * m := by
    rw [hL2def, pairSum_length, hL1len]
    omega
  have hL2ent : ∀ a ∈ L2, a ≤ 4 := by
    intro a ha
    have := pairSum_ent 2 L1 hL1ent a ha
    omega
  have hL2sum : L2.sum = popc X := by rw [hL2def, pairSum_sum, hL1sum]
  have h2 : swarRound 2 (8 * m) (ofF 2 L1) = ofF 4 L2 := by
    have := swarRound_ofF 2 (8 * m) (by norm_num) L1 (by omega)
      (fun a ha => by have := hL1ent a ha; omega)
    simpa using this
  set L3 := pairSum L2 with hL3def
  have hL3len : L3.length = 4 * m := by
    rw [hL3def, pairSum_length, hL2len]
    omega
  have hL3ent : ∀ a ∈ L3, a ≤ 8 := by
    intro a ha
    have := pairSum_ent 4 L2 hL2ent a ha
    omega
  have hL3sum : L3.sum = popc X := by rw [hL3def, pairSum_sum, hL2sum]
  have h3 : swarRound 4 (4 * m) (ofF 4 L2) = ofF 8 L3 := by
    have := swarRound_ofF 4 (4 * m) (by norm_num) L2 (by omega)
      (fun a ha => by have := hL2ent a ha; omega)
    simpa using this
  set L4 := pairSum L3 with hL4def
  have hL4len : L4.length = 2 * m := by
    rw [hL4def, pairSum_length, hL3len]
    omega
  have hL4ent : ∀ a ∈ L4, a ≤ 16 := by
    intro a ha
    have := pairSum_ent 8 L3 hL3ent a ha
    omega
  have hL4sum : L4.sum = popc X := by rw [hL4def, pairSum_sum, hL3sum]
  have h4 : swarRound 8 (2 * m) (ofF 8 L3) = ofF 16 L4 := by
    have := swarRound_ofF 8 (2 * m) (by norm_num) L3 (by omega)
      (fun a ha => by have := hL3ent a ha; omega)
    simpa using this
  set L5 := pairSum L4 with hL5def
  have hL5sum : L5.sum = popc X := by rw [hL5def, pairSum_sum, hL4sum]
  have h5 : swarRound 16 m (ofF 16 L4) = ofF 32 L5 := by
    have := swarRound_ofF 16 m (by norm_num) L4 (by omega)
      (fun a ha => by have := hL4ent a ha; omega)
    simpa using this
  have hpX : popc X ≤ 32 * m := popc_le (32 * m) X hX
  show swarRound 16 m (swarRound 8 (2 * m) (swarRound 4 (4 * m)
    (swarRound 2 (8 * m) (swarRound 1 (16 * m) X)))) % (2 ^ 32 - 1) = popc X
  rw [h1, h2, h3, h4, h5, ofF_mod, hL5sum]
  exact Nat.mod_eq_of_lt (by omega)

theorem lt_two_pow_of_testBit_false {X n : Nat}
    (h : ∀ j, n ≤ j → X.testBit j = false) : X < 2 ^ n := by
  by_contra hge
  push_neg at hge
  have hd : X / 2 ^ n ≠ 0 := by
    have h1 : 1 ≤ X / 2 ^ n := (Nat.le_div_iff_mul_le (Nat.pos_pow_of_pos _ (by norm_num))).mpr (by omega)
    omega
  obtain ⟨i, hi⟩ := Nat.ne_zero_implies_bit_true hd
  have h2 : X.testBit (n + i) = true := by
    rw [← Nat.shiftRight_eq_div_pow] at hi
    rw [← Nat.testBit_shiftRight]
    exact hi
  have := h (n + i) (by omega)
  rw [this] at h2
  exact Bool.false_ne_true h2

theorem repMask_testBit (W cnt j : Nat) (hW : 0 < W) :
    (repMask W cnt).testBit j = true ↔ (j / W < cnt ∧ j % W = 0) := by
  rw [repMask_eq_ofF W cnt hW]
  obtain ⟨i, r, hr, rfl⟩ : ∃ i r, r < W ∧ j = W * i + r :=
    ⟨j / W, j % W, Nat.mod_lt j hW, (Nat.div_add_mod j W).symm⟩
  have hent : ∀ a ∈ List.replicate cnt 1, a < 2 ^ W := by
    intro a ha
    rw [List.eq_of_mem_replicate ha]
    exact Nat.one_lt_two_pow_iff.mpr (by omega)
  rw [testBit_ofF W (List.replicate cnt 1) hent i r hr]
  have hdiv : (W * i + r) / W = i := by
    rw [Nat.mul_add_div hW, Nat.div_eq_of_lt hr]
    omega
  have hmod : (W * i + r) % W = r := by
    rw [Nat.mul_add_mod, Nat.mod_eq_of_lt hr]
  rw [hdiv, hmod]
  by_cases hi : i < cnt
  · rw [getD_replicate_lt hi,
      show (1 : Nat) = 2 ^ 0 from rfl, Nat.testBit_two_pow]
    simp only [decide_eq_true_eq]
    constructor
    · intro h
      exact ⟨hi, h.symm⟩
    · intro ⟨_, h⟩
      exact h.symm
  · rw [List.getD_eq_default _ _ (by simp; omega)]
    simp only [Nat.zero_testBit, Bool.false_eq_true, false_iff]
    intro hcon
    exact hi hcon.1

theorem pMask_testBit (p A B j : Nat) (hp : 0 < p) :
    (pMask p A B).testBit j = true ↔ ∃ k, A + j = p * k ∧ p ≤ k ∧ p * k < B := by
  set q := (A + p - 1) / p with hqdef
  have hq : A ≤ p * q := by
    have hdm : p * q + (A + p - 1) % p = A + p - 1 := Nat.div_add_mod _ _
    have hrm := Nat.mod_lt (A + p - 1) hp
    omega
  set m0 := max (p * p) (p * q) with hm0def
  have hmax : m0 = p * p ∨ m0 = p * q := max_choice _ _
  have hm0A : A ≤ m0 := le_trans hq (le_max_right _ _)
  have hm0pp : p * p ≤ m0 := le_max_left _ _
  obtain ⟨s, hs⟩ : ∃ s, m0 = p * s := by
    rcases hmax with h | h
    · exact ⟨p, h⟩
    · exact ⟨q, h⟩
  have hps : p ≤ s := by
    have h1 := hm0pp
    rw [hs] at h1
    exact Nat.le_of_mul_le_mul_left h1 hp
  have hpm : pMask p A B
      = if m0 < B then repMask p ((B - 1 - m0) / p + 1) <<< (m0 - A) else 0 := rfl
  rw [hpm]
  by_cases hlt : m0 < B
  · rw [if_pos hlt, Nat.testBit_shiftLeft]
    set Q := (B - 1 - m0) / p with hQdef
    have hQle : p * Q ≤ B - 1 - m0 := Nat.mul_div_le _ _
    constructor
    · intro hbit
      rw [Bool.and_eq_true, decide_eq_true_eq] at hbit
      obtain ⟨hdj, hbit2⟩ := hbit
      rw [repMask_testBit p (Q + 1) _ hp] at hbit2
      obtain ⟨hkm, hmod⟩ := hbit2
      have hdm := Nat.div_add_mod (j - (m0 - A)) p
      refine ⟨s + (j - (m0 - A)) / p, ?_,
        le_trans hps (Nat.le_add_right s _), ?_⟩
      · rw [Nat.mul_add, ← hs]
        omega
      · rw [Nat.mul_add, ← hs]
        have hle : p * ((j - (m0 - A)) / p) ≤ p * Q :=
          Nat.mul_le_mul_left p (by omega)
        omega
    · rintro ⟨k, hk, hpk, hkB⟩
      have hqk : q ≤ k := by
        rw [hqdef, Nat.div_le_iff_le_mul_add_pred hp]
        omega
      have hm0k : m0 ≤ p * k := by
        rcases hmax with h | h
        · rw [h]
          exact Nat.mul_le_mul_left p hpk
        · rw [h]
          exact Nat.mul_le_mul_left p hqk
      rw [Bool.and_eq_true, decide_eq_true_eq]
      have hds : s ≤ k := by
        apply Nat.le_of_mul_le_mul_left _ hp
        rw [← hs]
        exact hm0k
      have hsub : p * (k - s) = p * k - p * s := by
        have h2 : p * s + p * (k - s) = p * k := by
          rw [← Nat.mul_add]
          congr 1
          omega
        omega
      have he : j - (m0 - A) = p * (k - s) := by
        rw [hsub, ← hs]
        omega
      refine ⟨by omega, ?_⟩
      rw [repMask_testBit p (Q + 1) _ hp, he,
        Nat.mul_div_cancel_left _ hp, Nat.mul_mod_right]
      refine ⟨?_, rfl⟩
      have h3 : (k - s) * p ≤ B - 1 - m0 := by
        rw [Nat.mul_comm, hsub, ← hs]
        omega
      have h4 := (Nat.le_div_iff_mul_le hp).mpr h3
      omega
  · rw [if_neg hlt, Nat.zero_testBit]
    simp only [Bool.false_eq_true, false_iff]
    rintro ⟨k, hk, hpk, hkB⟩
    have hqk : q ≤ k := by
      rw [hqdef, Nat.div_le_iff_le_mul_add_pred hp]
      omega
    have hm0k : m0 ≤ p * k := by
      rcases hmax with h | h
      · rw [h]
        exact Nat.mul_le_mul_left p hpk
      · rw [h]
        exact Nat.mul_le_mul_left p hqk
    omega

theorem popc_eq_sum (n : Nat) : ∀ X, X < 2 ^ n →
    popc X = ∑ j ∈ Finset.range n, (if X.testBit j = true then 1 else 0) := by
  induction n with
  | zero =>
    intro X hX
    interval_cases X
    simp [popc_zero]
  | succ n ih =>
    intro X hX
    have hX2 : X / 2 < 2 ^ n := by
      rw [pow_succ] at hX
      exact Nat.div_lt_of_lt_mul (by omega)
    rw [popc_step, Finset.sum_range_succ', ih (X / 2) hX2]
    have hb0 : (if X.testBit 0 = true then 1 else 0) = X % 2 := by
      rw [Nat.testBit_zero]
      rcases Nat.mod_two_eq_zero_or_one X with h | h <;> simp [h]
    have hbs : ∀ j, (if X.testBit (j + 1) = true then 1 else 0)
        = (if (X / 2).testBit j = true then 1 else 0) := by
      intro j
      rw [Nat.testBit_add_one]
    rw [hb0]
    rw [Finset.sum_congr rfl (fun j _ => hbs j)]
    omega

theorem listOrP_append (A B : Nat) (l1 l2 : List Nat) :
    listOrP A B (l1 ++ l2) = listOrP A B l1 ||| listOrP A B l2 := by
  induction l1 with
  | nil =>
    show listOrP A B l2 = 0 ||| listOrP A B l2
    rw [Nat.zero_or]
  | cons a t ih =>
    show pMask a A B ||| listOrP A B (t ++ l2)
      = (pMask a A B ||| listOrP A B t) ||| listOrP A B l2
    rw [ih, Nat.or_assoc]

theorem orList_eq (A B : Nat) : ∀ d l, orList A B d l = listOrP A B l := by
  intro d
  induction d with
  | zero => intro l; rfl
  | succ d ih =>
    intro l
    show (if l.length ≤ 1 then listOrP A B l
      else orList A B d (l.take (l.length / 2)) ||| orList A B d (l.drop (l.length / 2)))
      = listOrP A B l
    by_cases h : l.length ≤ 1
    · rw [if_pos h]
    · rw [if_neg h, ih, ih, ← listOrP_append, List.take_append_drop]

theorem listOrP_testBit (A B : Nat) (l : List Nat) (j : Nat) :
    (listOrP A B l).testBit j = true ↔ ∃ q ∈ l, (pMask q A B).testBit j = true := by
  induction l with
  | nil => simp [listOrP, Nat.zero_testBit]
  | cons a t ih =>
    show (pMask a A B ||| listOrP A B t).testBit j = true ↔ _
    rw [Nat.testBit_or, Bool.or_eq_true, ih]
    constructor
    · rintro (h | ⟨q, hq, h⟩)
      · exact ⟨a, List.mem_cons_self a t, h⟩
      · exact ⟨q, List.mem_cons_of_mem a hq, h⟩
    · rintro ⟨q, hq, h⟩
      rcases List.mem_cons.mp hq with rfl | hq
      · exact Or.inl h
      · exact Or.inr ⟨q, hq, h⟩

theorem segMaskL_testBit (A B : Nat) (l : List Nat) (j : Nat)
    (hA : 2 ≤ A)
    (hsound : ∀ q ∈ l, Nat.Prime q)
    (hcomp : ∀ q, Nat.Prime q → q % 2 = 1 → q * q < B → q ∈ l)
    (hj : A + j < B) :
    (segMaskL A B l).testBit j = true ↔ ¬ Nat.Prime (A + j) := by
  show (pMask 2 A B ||| orList A B 16 l).testBit j = true ↔ _
  rw [orList_eq, Nat.testBit_or, Bool.or_eq_true,
    pMask_testBit 2 A B j (by norm_num), listOrP_testBit]
  constructor
  · rintro (⟨k, hk, h2k, hkB⟩ | ⟨q, hql, hbit⟩)
    · intro hpr
      rw [hk] at hpr
      rcases Nat.Prime.eq_one_or_self_of_dvd hpr 2 ⟨k, rfl⟩ with h | h
      · omega
      · have : 2 * 2 ≤ 2 * k := Nat.mul_le_mul_left 2 h2k
        omega
    · have hqp := hsound q hql
      obtain ⟨k, hk, hqk, hkB⟩ := (pMask_testBit q A B j hqp.pos).mp hbit
      intro hpr
      rw [hk] at hpr
      have hq2 : 2 ≤ q := hqp.two_le
      rcases Nat.Prime.eq_one_or_self_of_dvd hpr q ⟨k, rfl⟩ with h | h
      · omega
      · have : q * 2 ≤ q * k := Nat.mul_le_mul_left q (by omega)
        omega
  · intro hnp
    have hx2 : 2 ≤ A + j := by omega
    have hpf : (Nat.minFac (A + j)).Prime := Nat.minFac_prime (by omega)
    have hdvd : Nat.minFac (A + j) ∣ A + j := Nat.minFac_dvd _
    have hsq : Nat.minFac (A + j) * Nat.minFac (A + j) ≤ A + j := by
      have h := Nat.minFac_sq_le_self (show 0 < A + j by omega) hnp
      rwa [pow_two] at h
    obtain ⟨k, hk⟩ := hdvd
    have hpk : Nat.minFac (A + j) ≤ k := by
      have hsq2 : Nat.minFac (A + j) * Nat.minFac (A + j)
          ≤ Nat.minFac (A + j) * k := by
        rw [← hk]
        exact hsq
      exact Nat.le_of_mul_le_mul_left hsq2 hpf.pos
    rcases Nat.Prime.eq_two_or_odd hpf with h2 | hodd
    · left
      refine ⟨k, ?_, ?_, ?_⟩
      · rw [hk, h2]
      · have := hpf.two_le
        omega
      · rw [← h2, ← hk]
        omega
    · right
      refine ⟨Nat.minFac (A + j), hcomp _ hpf hodd (lt_of_le_of_lt hsq hj), ?_⟩
      exact (pMask_testBit _ A B j hpf.pos).mpr ⟨k, hk, hpk, by rw [← hk]; omega⟩

theorem pMask_lt (p A B : Nat) (hp : 0 < p) : pMask p A B < 2 ^ (B - A) := by
  apply lt_two_pow_of_testBit_false
  intro j hj
  cases hb : (pMask p A B).testBit j with
  | false => rfl
  | true =>
    obtain ⟨k, hk, _, hkB⟩ := (pMask_testBit p A B j hp).mp hb
    omega

theorem listOrP_lt (A B : Nat) (l : List Nat) (hl : ∀ q ∈ l, 0 < q) :
    listOrP A B l < 2 ^ (B - A) := by
  induction l with
  | nil => exact Nat.pos_pow_of_pos _ (by norm_num)
  | cons a t ih =>
    show pMask a A B ||| listOrP A B t < 2 ^ (B - A)
    exact Nat.or_lt_two_pow
      (pMask_lt a A B (hl a (List.mem_cons_self a t)))
      (ih (fun q hq => hl q (List.mem_cons_of_mem a hq)))

theorem segMaskL_lt (A B : Nat) (l : List Nat) (hl : ∀ q ∈ l, 0 < q) :
    segMaskL A B l < 2 ^ (B - A) := by
  show pMask 2 A B ||| orList A B 16 l < 2 ^ (B - A)
  rw [orList_eq]
  exact Nat.or_lt_two_pow (pMask_lt 2 A B (by norm_num)) (listOrP_lt A B l hl)

theorem segCountL_eq (A B : Nat) (l : List Nat)
    (hA : 2 ≤ A) (hAB : A ≤ B)
    (hsound : ∀ q ∈ l, Nat.Prime q)
    (hcomp : ∀ q, Nat.Prime q → q % 2 = 1 → q * q < B → q ∈ l)
    (hsize : 32 * ((B - A) / 32 + 1) < 2 ^ 32 - 1) :
    segCountL A B l = ((Finset.Ico A B).filter Nat.Prime).card := by
  have hl0 : ∀ q ∈ l, 0 < q := fun q hq => (hsound q hq).pos
  have hmlt : segMaskL A B l < 2 ^ (B - A) := segMaskL_lt A B l hl0
  have hm32 : B - A ≤ 32 * ((B - A) / 32 + 1) := by omega
  have hmlt2 : segMaskL A B l < 2 ^ (32 * ((B - A) / 32 + 1)) :=
    lt_of_lt_of_le hmlt (Nat.pow_le_pow_right (by norm_num) hm32)
  show (B - A) - popc32 ((B - A) / 32 + 1) (segMaskL A B l) = _
  rw [popc32_eq ((B - A) / 32 + 1) _ (by omega) hmlt2 hsize,
    popc_eq_sum (B - A) _ hmlt]
  have hsum : ∑ j ∈ Finset.range (B - A),
        (if (segMaskL A B l).testBit j = true then 1 else 0)
      = ((Finset.range (B - A)).filter (fun j => ¬ Nat.Prime (A + j))).card := by
    rw [Finset.card_filter]
    apply Finset.sum_congr rfl
    intro j hjr
    have hj : A + j < B := by
      have := Finset.mem_range.mp hjr
      omega
    exact if_congr (segMaskL_testBit A B l j hA hsound hcomp hj) rfl rfl
  rw [hsum]
  have hcards : ((Finset.range (B - A)).filter (fun j => Nat.Prime (A + j))).card
      + ((Finset.range (B - A)).filter (fun j => ¬ Nat.Prime (A + j))).card
      = B - A := by
    rw [Finset.filter_card_add_filter_neg_card_eq_card]
    exact Finset.card_range _
  have hbij : ((Finset.range (B - A)).filter (fun j => Nat.Prime (A + j))).card
      = ((Finset.Ico A B).filter Nat.Prime).card := by
    apply Finset.card_bij (fun j _ => A + j)
    · intro j hj
      rw [Finset.mem_filter, Finset.mem_range] at hj
      rw [Finset.mem_filter, Finset.mem_Ico]
      exact ⟨⟨by omega, by omega⟩, hj.2⟩
    · intro a _ b _ h
      omega
    · intro x hx
      rw [Finset.mem_filter, Finset.mem_Ico] at hx
      refine ⟨x - A, ?_, by omega⟩
      rw [Finset.mem_filter, Finset.mem_range]
      refine ⟨by omega, ?_⟩
      rw [show A + (x - A) = x from by omega]
      exact hx.2
  omega

/-! ## Certification of the sieving prime list and concrete prime counts -/

theorem primesSmall2_eq :
    primesSmall2
      = (List.range 3936).filter (fun q => isPrime q && decide (q % 2 = 1)) := by
  decide

theorem primesSmall2_sound : ∀ q ∈ primesSmall2, Nat.Prime q := by
  intro q hq
  rw [primesSmall2_eq, List.mem_filter] at hq
  have h2 := hq.2
  rw [Bool.and_eq_true] at h2
  exact (isPrime_iff q).mp h2.1

theorem primesSmall2_complete :
    ∀ q, Nat.Prime q → q % 2 = 1 → q * q < 15485864 → q ∈ primesSmall2 := by
  intro q hq hodd hsq
  rw [primesSmall2_eq, List.mem_filter]
  constructor
  · rw [List.mem_range]
    by_contra hge
    push_neg at hge
    have hmul : 3936 * 3936 ≤ q * q := Nat.mul_le_mul hge hge
    omega
  · rw [Bool.and_eq_true, decide_eq_true_eq]
    exact ⟨(isPrime_iff q).mpr hq, hodd⟩

theorem segCountL_card (A B : Nat) (hA : 2 ≤ A) (hAB : A ≤ B) (hB : B ≤ 15485864)
    (hsize : 32 * ((B - A) / 32 + 1) < 2 ^ 32 - 1) :
    segCountL A B primesSmall2 = ((Finset.Ico A B).filter Nat.Prime).card :=
  segCountL_eq A B primesSmall2 hA hAB primesSmall2_sound
    (fun q h1 h2 h3 => primesSmall2_complete q h1 h2 (by omega)) hsize

theorem card_Ico_split (a b c : Nat) (hab : a ≤ b) (hbc : b ≤ c) :
    ((Finset.Ico a c).filter Nat.Prime).card
      = ((Finset.Ico a b).filter Nat.Prime).card
        + ((Finset.Ico b c).filter Nat.Prime).card := by
  rw [← Finset.Ico_union_Ico_eq_Ico hab hbc, Finset.filter_union,
    Finset.card_union_of_disjoint
      (Finset.disjoint_filter_filter (Finset.Ico_disjoint_Ico_consecutive a b c))]

theorem card_Ico_02 : ((Finset.Ico 0 2).filter Nat.Prime).card = 0 := by
  rw [Finset.card_eq_zero, Finset.filter_eq_empty_iff]
  intro x hx
  rw [Finset.mem_Ico] at hx
  obtain ⟨_, hx2⟩ := hx
  interval_cases x
  · exact Nat.not_prime_zero
  · exact Nat.not_prime_one

theorem seg_count_1 : segCountL 2 4000000 primesSmall2 = 283146 := by decide

theorem seg_count_2 : segCountL 4000000 8000000 primesSmall2 = 256631 := by decide

theorem seg_count_3 : segCountL 8000000 12000000 primesSmall2 = 248283 := by decide

theorem seg_count_4 : segCountL 12000000 15485864 primesSmall2 = 211940 := by decide

theorem seg_count_m : segCountL 2 1000001 primesSmall2 = 78498 := by decide

theorem count_prime_15485864 : Nat.count Nat.Prime 15485864 = 10 ^ 6 := by
  rw [Nat.count_eq_card_filter_range, ← Nat.Ico_zero_eq_range,
    card_Ico_split 0 2 15485864 (by norm_num) (by norm_num), card_Ico_02,
    card_Ico_split 2 4000000 15485864 (by norm_num) (by norm_num),
    card_Ico_split 4000000 8000000 15485864 (by norm_num) (by norm_num),
    card_Ico_split 8000000 12000000 15485864 (by norm_num) (by norm_num),
    ← segCountL_card 2 4000000 (by norm_num) (by norm_num) (by norm_num) (by decide),
    ← segCountL_card 4000000 8000000 (by norm_num) (by norm_num) (by norm_num)
      (by decide),
    ← segCountL_card 8000000 12000000 (by norm_num) (by norm_num) (by norm_num)
      (by decide),
    ← segCountL_card 12000000 15485864 (by norm_num) (by norm_num) (by norm_num)
      (by decide),
    seg_count_1, seg_count_2, seg_count_3, seg_count_4]
  norm_num

theorem count_prime_1000001 : Nat.count Nat.Prime 1000001 = 78498 := by
  rw [Nat.count_eq_card_filter_range, ← Nat.Ico_zero_eq_range,
    card_Ico_split 0 2 1000001 (by norm_num) (by norm_num), card_Ico_02,
    ← segCountL_card 2 1000001 (by norm_num) (by norm_num) (by norm_num) (by decide),
    seg_count_m]

/-! ## Values of count_primes and nth_prime -/

theorem count_primes_10 : count_primes 0 10 = 4 := by decide

theorem count_primes_1000 : count_primes 0 1000 = 168 := by decide

theorem count_primes_1_100 : count_primes 1 100 = 25 := by decide

theorem count_primes_1e6 : count_primes 0 (10 ^ 6) = 78498 := by
  rw [count_primes_count (10 ^ 6) (by norm_num [max_stop]),
    show (10 : Nat) ^ 6 + 1 = 1000001 from by norm_num, count_prime_1000001]

theorem nth_prime_one : nth_prime 1 0 = 2 := by decide

theorem nth_prime_twentyfive : nth_prime 25 0 = 97 := by decide

theorem nth_prime_millionth : nth_prime (10 ^ 6) 0 = 15485863 := by
  obtain ⟨hp, hc⟩ := nth_prime_roundtrip (10 ^ 6) (by norm_num) (by norm_num)
  have hle := nthPrimeAux_le_max_stop (10 ^ 6) (by norm_num)
  rw [nth_prime_eq_aux _ (by norm_num)] at hp hc ⊢
  rw [count_primes_count _ hle] at hc
  have h2 : Nat.Prime 15485863 := (isPrime_iff 15485863).mp (by decide)
  apply count_succ_prime_inj _ _ hp h2
  rw [hc, show (15485863 : Nat) + 1 = 15485864 from by norm_num,
    count_prime_15485864]

/-! ## Claim C5 -/

/-- C5: for every k in [1, 10^7], nth_prime(k, 0) is prime and
count_primes(0, nth_prime(k, 0)) = k (round trip between nth_prime and
count_primes); in particular nth_prime(1, 0) = 2, nth_prime(25, 0) = 97
and nth_prime(10^6, 0) = 15485863. -/
theorem primesieve_C5_nth_prime_inverse (k : Nat) (h1 : 1 ≤ k) (h2 : k ≤ 10 ^ 7) :
    Nat.Prime (nth_prime k 0)
    ∧ count_primes 0 (nth_prime k 0) = k
    ∧ nth_prime 1 0 = 2
    ∧ nth_prime 25 0 = 97
    ∧ nth_prime (10 ^ 6) 0 = 15485863 := by
  obtain ⟨hp, hc⟩ := nth_prime_roundtrip k h1 h2
  exact ⟨hp, hc, nth_prime_one, nth_prime_twentyfive, nth_prime_millionth⟩

theorem primesieve_C5_witness :
    Nat.Prime (nth_prime 5 0)
    ∧ count_primes 0 (nth_prime 5 0) = 5
    ∧ nth_prime 1 0 = 2
    ∧ nth_prime 25 0 = 97
    ∧ nth_prime (10 ^ 6) 0 = 15485863 :=
  primesieve_C5_nth_prime_inverse 5 (by norm_num) (by norm_num)
